import Mathlib

/-!
# SimpleVector: a shallow embedding of `simple-vector/simple_vector.h`

The container `SimpleVector<Type>` owns a backing store `items_` (an
`ArrayPtr<Type>`) and two `size_t` counters, `size_` and `capacity_`.

Modelling conventions.

* A backing store is the list of its slots; slot `i` is the `i`-th entry.
* Iterators (`Type*`) are slot offsets from the base of the store, so
  `begin()` is offset `0` and `&items_[i]` is offset `i`.
* `size_t` arithmetic that the code performs on the counters (`++size_`,
  `--size_`, `capacity_ * 2`) wraps modulo `2 ^ 64`.
* An access outside the store, or an iterator range whose end precedes its
  start, is undefined behaviour in C++; the model reports it as the fault
  `Fault.undefined_behaviour`. The exception thrown by `At` is the fault
  `Fault.out_of_range`.
* Allocation is assumed to succeed.
* Moving an element out of a slot leaves `Movable.residue x` in that slot,
  where `x` is the value moved; copying leaves the slot as it is.
* The reference parameter of `Insert` is a `Ref`: it is bound to an object
  outside the array or to a slot of the array the call is made on, and it is
  read when the code reads it. The reference parameter of `PushBack` is
  given by the value read through it: both overloads read `item` once,
  before any slot it could refer to has been written.
-/

namespace SimpleVectorModel

/-- Ways in which a call does not return normally. -/
inductive Fault where
  | out_of_range : Fault
  | undefined_behaviour : Fault
  deriving DecidableEq, Repr

/-- Number of values of `size_t` (64-bit). -/
def SIZE_MOD : Nat := 2 ^ 64

/-- Largest number of slots an array object can have: its size in bytes is
at most `PTRDIFF_MAX`. -/
def PTRDIFF_MAX : Nat := 2 ^ 63 - 1

/-- State of `++n` on a `size_t`. -/
def incr (n : Nat) : Nat := (n + 1) % SIZE_MOD

/-- State of `--n` on a `size_t`: `0` wraps to `SIZE_MAX`. -/
def decr (n : Nat) : Nat := (n + (SIZE_MOD - 1)) % SIZE_MOD

/-- Product `n * 2` on `size_t`. -/
def twice (n : Nat) : Nat := (n * 2) % SIZE_MOD

/-- Element types: `residue x` is the state a slot is left in after the
value `x` has been moved out of it (for `int` it is `x` itself). The value
`Type()` is `default` of `Inhabited`. -/
class Movable (α : Type) where
  residue : α → α

instance : Movable Nat := ⟨fun x => x⟩

/-- A move out of a list of numbers leaves the empty list behind, as for
`std::vector<int>` or `std::string`. -/
instance : Movable (List Nat) := ⟨fun _ => []⟩

/-- Modelled from the spec: the backing store `ArrayPtr<Type>` declared in
`array_ptr.h`, which is not part of the sources at hand. It exclusively owns
one contiguous block of slots; here the block is the list of its slots. -/
structure ArrayPtr (α : Type) where
  raw_ptr_ : List α
  deriving DecidableEq, Repr

namespace ArrayPtr

variable {α : Type}

/-- Modelled from the spec: the default-constructed store of `array_ptr.h`,
which owns no slots. -/
def null : ArrayPtr α := ⟨[]⟩

/-- Modelled from the spec: `ArrayPtr(n)` of `array_ptr.h`, a new store
owning exactly `n` default-initialized slots. -/
def alloc [Inhabited α] (n : Nat) : ArrayPtr α := ⟨List.replicate n default⟩

/-- Modelled from the spec: the validity check (`operator bool`) of
`array_ptr.h`, whether the store currently owns any slots. -/
def valid (p : ArrayPtr α) : Bool := !p.raw_ptr_.isEmpty

/-- Number of slots the store owns. -/
def slots (p : ArrayPtr α) : Nat := p.raw_ptr_.length

/-- Modelled from the spec: indexed read `p[i]` of `array_ptr.h`, with the
precondition `i < n`; outside the block it is undefined behaviour. -/
def read (p : ArrayPtr α) (i : Nat) : Except Fault α :=
  match p.raw_ptr_.get? i with
  | some x => .ok x
  | none => .error .undefined_behaviour

/-- Modelled from the spec: indexed write `p[i] = x` of `array_ptr.h`, with
the precondition `i < n`; outside the block it is undefined behaviour. -/
def write (p : ArrayPtr α) (i : Nat) (x : α) : Except Fault (ArrayPtr α) :=
  if i < p.raw_ptr_.length then .ok ⟨p.raw_ptr_.set i x⟩
  else .error .undefined_behaviour

end ArrayPtr

/-- How a standard algorithm transfers an element: over plain iterators it
copies, over `std::make_move_iterator` it moves. -/
inductive Transfer where
  | by_copy : Transfer
  | by_move : Transfer
  deriving DecidableEq, Repr

variable {α : Type}

/-- What the source slot `i`, which held `x`, is after the transfer. -/
def vacate [Movable α] (t : Transfer) (p : ArrayPtr α) (i : Nat) (x : α) :
    Except Fault (ArrayPtr α) :=
  match t with
  | .by_copy => .ok p
  | .by_move => p.write i (Movable.residue x)

/-- Loop of `std::copy` from one store into another: `n` elements, from
offset `first` of `src` to offset `d` of `dst`, in increasing order. Returns
both stores. -/
def copy_loop [Movable α] (t : Transfer) :
    Nat → ArrayPtr α → Nat → ArrayPtr α → Nat → Except Fault (ArrayPtr α × ArrayPtr α)
  | 0, src, _, dst, _ => .ok (src, dst)
  | n + 1, src, first, dst, d =>
    match src.read first with
    | .error e => .error e
    | .ok x =>
      match dst.write d x with
      | .error e => .error e
      | .ok dst1 =>
        match vacate t src first x with
        | .error e => .error e
        | .ok src1 => copy_loop t n src1 (first + 1) dst1 (d + 1)

/-- Call `std::copy(first, last, d)` where `[first, last)` lies in `src` and
`d` in another store `dst`. -/
def std_copy [Movable α] (t : Transfer) (src : ArrayPtr α) (first last : Nat)
    (dst : ArrayPtr α) (d : Nat) : Except Fault (ArrayPtr α × ArrayPtr α) :=
  if last < first then .error .undefined_behaviour
  else copy_loop t (last - first) src first dst d

/-- Loop of `std::copy` inside one store: `n` elements, from offset `first`
to offset `d`, in increasing order. -/
def copy_within_loop [Movable α] (t : Transfer) :
    Nat → ArrayPtr α → Nat → Nat → Except Fault (ArrayPtr α)
  | 0, p, _, _ => .ok p
  | n + 1, p, first, d =>
    match p.read first with
    | .error e => .error e
    | .ok x =>
      match p.write d x with
      | .error e => .error e
      | .ok p1 =>
        match vacate t p1 first x with
        | .error e => .error e
        | .ok p2 => copy_within_loop t n p2 (first + 1) (d + 1)

/-- Call `std::copy(first, last, d)` with source range and destination in
the same store. -/
def std_copy_within [Movable α] (t : Transfer) (p : ArrayPtr α) (first last d : Nat) :
    Except Fault (ArrayPtr α) :=
  if last < first then .error .undefined_behaviour
  else copy_within_loop t (last - first) p first d

/-- Loop of `std::copy_backward` inside one store: `n` times
`*(--d_last) = *(--last)`. -/
def copy_backward_loop [Movable α] (t : Transfer) :
    Nat → ArrayPtr α → Nat → Nat → Except Fault (ArrayPtr α)
  | 0, p, _, _ => .ok p
  | _ + 1, _, 0, _ => .error .undefined_behaviour
  | _ + 1, _, _ + 1, 0 => .error .undefined_behaviour
  | n + 1, p, last + 1, d_last + 1 =>
    match p.read last with
    | .error e => .error e
    | .ok x =>
      match p.write d_last x with
      | .error e => .error e
      | .ok p1 =>
        match vacate t p1 last x with
        | .error e => .error e
        | .ok p2 => copy_backward_loop t n p2 last d_last

/-- Call `std::copy_backward(first, last, d_last)` inside one store. -/
def std_copy_backward [Movable α] (t : Transfer) (p : ArrayPtr α) (first last d_last : Nat) :
    Except Fault (ArrayPtr α) :=
  if last < first then .error .undefined_behaviour
  else copy_backward_loop t (last - first) p last d_last

/-- Loop of `std::fill` and of the `for` loops of `Resize`: writes `x` to
the `n` slots from offset `first` on. -/
def fill_loop : Nat → ArrayPtr α → Nat → α → Except Fault (ArrayPtr α)
  | 0, p, _, _ => .ok p
  | n + 1, p, first, x =>
    match p.write first x with
    | .error e => .error e
    | .ok p1 => fill_loop n p1 (first + 1) x

/-- Call `std::fill(first, last, x)`. -/
def std_fill (p : ArrayPtr α) (first last : Nat) (x : α) : Except Fault (ArrayPtr α) :=
  if last < first then .error .undefined_behaviour
  else fill_loop (last - first) p first x

/-- Object a reference parameter (`const Type&` or `Type&&`) is bound to: an
object outside the array, given by its value, or the slot `j` of the backing
store that the array owns when the call is made. -/
inductive Ref (α : Type) where
  | outside : α → Ref α
  | slot : Nat → Ref α
  deriving DecidableEq, Repr

/-- The reference is bound to an object outside the array or, for the
overload taking `const Type&`, to one of the first `n` slots of the store.
An element passed as `std::move(v[j])` to the overload taking `Type&&` is
handed over by the caller and is excluded. -/
def Ref.fits (t : Transfer) (n : Nat) : Ref α → Prop
  | .outside _ => True
  | .slot j => t = .by_copy ∧ j < n

instance (t : Transfer) (n : Nat) (r : Ref α) : Decidable (r.fits t n) := by
  cases r <;> unfold Ref.fits <;> infer_instance

/-- Assignment `p[i] = value` (`t = by_copy`) or `p[i] = std::move(value)`
(`t = by_move`), where a reference into the array refers to the store `p`
that is written: the referred slot is read when the assignment is made. -/
def assign_within [Movable α] (t : Transfer) (p : ArrayPtr α) (i : Nat) (value : Ref α) :
    Except Fault (ArrayPtr α) :=
  match value with
  | .outside x => p.write i x
  | .slot j =>
    match p.read j with
    | .error e => .error e
    | .ok x =>
      match p.write i x with
      | .error e => .error e
      | .ok p1 => vacate t p1 j x

/-- Assignment `dst[i] = value` (`t = by_copy`) or `dst[i] = std::move(value)`
(`t = by_move`), where a reference into the array refers to the store `src`,
another store than the one written. Returns both stores. -/
def assign_across [Movable α] (t : Transfer) (src dst : ArrayPtr α) (i : Nat)
    (value : Ref α) : Except Fault (ArrayPtr α × ArrayPtr α) :=
  match value with
  | .outside x =>
    match dst.write i x with
    | .error e => .error e
    | .ok dst1 => .ok (src, dst1)
  | .slot j =>
    match src.read j with
    | .error e => .error e
    | .ok x =>
      match dst.write i x with
      | .error e => .error e
      | .ok dst1 =>
        match vacate t src j x with
        | .error e => .error e
        | .ok src1 => .ok (src1, dst1)

/-- The class `SimpleVector<Type>`: its three data members. -/
structure SimpleVector (α : Type) where
  items_ : ArrayPtr α
  size_ : Nat
  capacity_ : Nat
  deriving DecidableEq, Repr

namespace SimpleVector

/-- Constructor `SimpleVector()`: default members. -/
def empty : SimpleVector α := { items_ := ArrayPtr.null, size_ := 0, capacity_ := 0 }

/-- Member `GetSize`. -/
def GetSize (v : SimpleVector α) : Nat := v.size_

/-- Member `GetCapacity`. -/
def GetCapacity (v : SimpleVector α) : Nat := v.capacity_

/-- Member `IsEmpty`. -/
def IsEmpty (v : SimpleVector α) : Bool := v.size_ == 0

/-- Members `begin`, `cbegin`: offset of `&items_[0]`, and of `nullptr` for a
store without slots. -/
def begin_ (_v : SimpleVector α) : Nat := 0

/-- Members `end`, `cend`: offset of `&items_[size_]`, and `nullptr` (equal
to `begin()`) for a store without slots. -/
def end_ (v : SimpleVector α) : Nat := if v.items_.valid then v.size_ else 0

/-- Elements in logical use: the slots at positions `[0, size_)`. -/
def elems (v : SimpleVector α) : List α := v.items_.raw_ptr_.take v.size_

/-- Members `PushBack(const Type&)` (`t = by_copy`) and `PushBack(Type&&)`
(`t = by_move`). The parameter `item` is the value read through the
reference: the code reads it once, in `items_[size_] = item` or in
`new_items[size_] = item`, when no element of the store it could refer to
has been written. -/
def PushBack [Inhabited α] [Movable α] (t : Transfer) (v : SimpleVector α) (item : α) :
    Except Fault (SimpleVector α) :=
  if v.size_ < v.capacity_ then
    match v.items_.write v.size_ item with
    | .error e => .error e
    | .ok items => .ok { items_ := items, size_ := incr v.size_, capacity_ := v.capacity_ }
  else
    let new_capacity := if v.capacity_ = 0 then 1 else twice v.capacity_
    match std_copy t v.items_ v.begin_ v.end_ (ArrayPtr.alloc new_capacity) 0 with
    | .error e => .error e
    | .ok (_, new_items) =>
      match new_items.write v.size_ item with
      | .error e => .error e
      | .ok new_items =>
        .ok { items_ := new_items, size_ := incr v.size_, capacity_ := new_capacity }

/-- Members `Insert(ConstIterator, const Type&)` (`t = by_copy`) and
`Insert(ConstIterator, Type&&)` (`t = by_move`). The iterator `pos` is a slot
offset and `value` is the object the reference parameter is bound to, which
is read after `std::copy_backward` has shifted the elements, or after the
first `std::copy` into the new store. The result is the array after the call
and the returned iterator. -/
def Insert [Inhabited α] [Movable α] (t : Transfer) (v : SimpleVector α) (pos : Nat)
    (value : Ref α) : Except Fault (SimpleVector α × Nat) :=
  let index := pos - v.begin_
  if v.size_ < v.capacity_ then
    match std_copy_backward t v.items_ index v.end_ (v.end_ + 1) with
    | .error e => .error e
    | .ok items =>
      match assign_within t items index value with
      | .error e => .error e
      | .ok items =>
        .ok ({ items_ := items, size_ := incr v.size_, capacity_ := v.capacity_ }, index)
  else
    let new_capacity := if v.capacity_ = 0 then 1 else twice v.capacity_
    match std_copy t v.items_ v.begin_ index (ArrayPtr.alloc new_capacity) 0 with
    | .error e => .error e
    | .ok (items, new_items) =>
      match assign_across t items new_items index value with
      | .error e => .error e
      | .ok (items, new_items) =>
        match std_copy t items index v.end_ new_items (index + 1) with
        | .error e => .error e
        | .ok (_, new_items) =>
          .ok ({ items_ := new_items, size_ := incr v.size_, capacity_ := new_capacity }, index)

/-- Member `PopBack`. -/
def PopBack (v : SimpleVector α) : SimpleVector α :=
  { v with size_ := decr v.size_ }

/-- Member `Erase`. The result is the array after the call and the returned
iterator. -/
def Erase [Movable α] (v : SimpleVector α) (pos : Nat) : Except Fault (SimpleVector α × Nat) :=
  let index := pos - v.begin_
  match std_copy_within .by_move v.items_ (index + 1) v.end_ index with
  | .error e => .error e
  | .ok items =>
    .ok ({ items_ := items, size_ := decr v.size_, capacity_ := v.capacity_ }, index)

/-- Member `Clear`. -/
def Clear (v : SimpleVector α) : SimpleVector α :=
  { v with size_ := 0 }

/-- An array is well formed when its backing store holds exactly `capacity_`
slots (a number of slots a store can have) and `size_ <= capacity_`. -/
def WellFormed (v : SimpleVector α) : Prop :=
  v.items_.raw_ptr_.length = v.capacity_ ∧ v.size_ ≤ v.capacity_ ∧ v.capacity_ ≤ PTRDIFF_MAX

instance (v : SimpleVector α) : Decidable (WellFormed v) := by
  unfold WellFormed; infer_instance

/-- The argument of a call on `v` is an object outside the array or, for the
overload taking `const Type&`, one of the elements of `v`. -/
def admits (t : Transfer) (v : SimpleVector α) (value : Ref α) : Prop :=
  value.fits t v.size_

instance (t : Transfer) (v : SimpleVector α) (value : Ref α) :
    Decidable (admits t v value) := by
  unfold admits; infer_instance

/-- All `size_` elements in logical use are slots of the backing store. -/
def Readable (v : SimpleVector α) : Prop := v.size_ ≤ v.items_.raw_ptr_.length

instance (v : SimpleVector α) : Decidable (Readable v) := by
  unfold Readable; infer_instance

/-- Capacity after a call of `PushBack` or `Insert` on an array with the
given size and capacity, as the growth rule is documented: unchanged with
spare capacity, else `1` from `0` and doubled otherwise. -/
def grown (size capacity : Nat) : Nat :=
  if size < capacity then capacity else if capacity = 0 then 1 else 2 * capacity

/-- Constructor `SimpleVector(size_t size)`. -/
def with_size [Inhabited α] (size : Nat) : Except Fault (SimpleVector α) :=
  match std_fill (ArrayPtr.alloc size) 0 size default with
  | .error e => .error e
  | .ok items => .ok { items_ := items, size_ := size, capacity_ := size }

/-- Constructor `SimpleVector(size_t size, const Type& value)`. -/
def with_value [Inhabited α] (size : Nat) (value : α) : Except Fault (SimpleVector α) :=
  match std_fill (ArrayPtr.alloc size) 0 size value with
  | .error e => .error e
  | .ok items => .ok { items_ := items, size_ := size, capacity_ := size }

/-- Constructor `SimpleVector(std::initializer_list<Type> init)`. The
elements of an initializer list are `const`, so the move iterators copy. -/
def of_init [Inhabited α] [Movable α] (init : List α) : Except Fault (SimpleVector α) :=
  match std_copy .by_copy ⟨init⟩ 0 init.length (ArrayPtr.alloc init.length) 0 with
  | .error e => .error e
  | .ok (_, items) => .ok { items_ := items, size_ := init.length, capacity_ := init.length }

/-- Constructor `SimpleVector(ReserveProxyObj proxy_obj)`, the argument being
`proxy_obj.capacity_to_reserve`. -/
def with_reserve [Inhabited α] (capacity_to_reserve : Nat) : SimpleVector α :=
  { items_ := ArrayPtr.alloc capacity_to_reserve, size_ := 0, capacity_ := capacity_to_reserve }

/-- Constructor `SimpleVector(const SimpleVector& other)`. The result is the
new array and `other` after the call. -/
def copy_construct [Inhabited α] [Movable α] (other : SimpleVector α) :
    Except Fault (SimpleVector α × SimpleVector α) :=
  match std_copy .by_copy other.items_ other.begin_ other.end_
      (ArrayPtr.alloc other.GetSize) 0 with
  | .error e => .error e
  | .ok (items, new_items) =>
    .ok ({ items_ := new_items, size_ := other.GetSize, capacity_ := other.GetCapacity },
         { other with items_ := items })

/-- Constructor `SimpleVector(SimpleVector&& other)`. The result is the new
array and `other` after the call. -/
def move_construct [Inhabited α] [Movable α] (other : SimpleVector α) :
    Except Fault (SimpleVector α × SimpleVector α) :=
  match std_copy .by_move other.items_ other.begin_ other.end_
      (ArrayPtr.alloc other.GetSize) 0 with
  | .error e => .error e
  | .ok (items, new_items) =>
    .ok ({ items_ := new_items, size_ := other.size_, capacity_ := other.GetCapacity },
         { items_ := items, size_ := 0, capacity_ := other.capacity_ })

/-- Member `operator=(const SimpleVector& rhs)` called on `self`, where
`rhs` is another object (`this != &rhs`). The result is `self` and `rhs`
after the call. -/
def copy_assign [Inhabited α] [Movable α] (_self rhs : SimpleVector α) :
    Except Fault (SimpleVector α × SimpleVector α) :=
  match std_copy .by_copy rhs.items_ rhs.begin_ rhs.end_ (ArrayPtr.alloc rhs.GetCapacity) 0 with
  | .error e => .error e
  | .ok (items, new_items) =>
    .ok ({ items_ := new_items, size_ := rhs.GetSize, capacity_ := rhs.GetCapacity },
         { rhs with items_ := items })

/-- Member `operator=(const SimpleVector& rhs)` called as `self = self`
(`this == &rhs`): nothing is done. -/
def copy_assign_self (self : SimpleVector α) : SimpleVector α := self

/-- Member `operator=(SimpleVector&& rhs)` called on `self`, where `rhs` is
another object (`this != &rhs`). The result is `self` and `rhs` after the
call. -/
def move_assign [Inhabited α] [Movable α] (_self rhs : SimpleVector α) :
    Except Fault (SimpleVector α × SimpleVector α) :=
  match std_copy .by_move rhs.items_ rhs.begin_ rhs.end_ (ArrayPtr.alloc rhs.GetCapacity) 0 with
  | .error e => .error e
  | .ok (items, new_items) =>
    .ok ({ items_ := new_items, size_ := rhs.size_, capacity_ := rhs.GetCapacity },
         { items_ := items, size_ := 0, capacity_ := rhs.capacity_ })

/-- Member `operator=(SimpleVector&& rhs)` called as `self = std::move(self)`
(`this == &rhs`): nothing is done. -/
def move_assign_self (self : SimpleVector α) : SimpleVector α := self

/-- Member `operator[]`. -/
def index (v : SimpleVector α) (i : Nat) : Except Fault α := v.items_.read i

/-- Member `At` (both overloads). The result is the outcome of the call and
the array after it. -/
def At (v : SimpleVector α) (index : Nat) : Except Fault α × SimpleVector α :=
  if index ≥ v.size_ then (.error .out_of_range, v)
  else (v.items_.read index, v)

/-- Member `Resize`. -/
def Resize [Inhabited α] [Movable α] (v : SimpleVector α) (new_size : Nat) :
    Except Fault (SimpleVector α) :=
  if new_size ≤ v.size_ then
    .ok { v with size_ := new_size }
  else if new_size ≤ v.capacity_ then
    match fill_loop (new_size - v.size_) v.items_ v.size_ default with
    | .error e => .error e
    | .ok items => .ok { items_ := items, size_ := new_size, capacity_ := v.capacity_ }
  else
    let new_capacity := max new_size (twice v.capacity_)
    match std_copy .by_move v.items_ v.begin_ v.end_ (ArrayPtr.alloc new_capacity) 0 with
    | .error e => .error e
    | .ok (_, new_items) =>
      match fill_loop (new_size - v.size_) new_items v.size_ default with
      | .error e => .error e
      | .ok new_items =>
        .ok { items_ := new_items, size_ := new_size, capacity_ := new_capacity }

/-- Successive calls of `PushBack`, one for each value of the list, in
order. -/
def PushBack_all [Inhabited α] [Movable α] (t : Transfer) :
    SimpleVector α → List α → Except Fault (SimpleVector α)
  | v, [] => .ok v
  | v, x :: xs =>
    match PushBack t v x with
    | .error e => .error e
    | .ok w => PushBack_all t w xs

/-- Member `swap`. The result is the object and `other` after the call. -/
def swap (v other : SimpleVector α) : SimpleVector α × SimpleVector α :=
  ({ items_ := other.items_, size_ := other.size_, capacity_ := other.capacity_ },
   { items_ := v.items_, size_ := v.size_, capacity_ := v.capacity_ })

/-- Member `Reserve`. -/
def Reserve [Inhabited α] [Movable α] (v : SimpleVector α) (new_capacity : Nat) :
    Except Fault (SimpleVector α) :=
  if new_capacity > v.capacity_ then
    match std_copy .by_move v.items_ v.begin_ v.end_ (ArrayPtr.alloc new_capacity) 0 with
    | .error e => .error e
    | .ok (_, new_items) =>
      .ok { items_ := new_items, size_ := v.size_, capacity_ := new_capacity }
  else .ok v

end SimpleVector

/-- Loop of `std::equal` over two ranges of the same length `n`. -/
def equal_loop [DecidableEq α] :
    Nat → ArrayPtr α → Nat → ArrayPtr α → Nat → Except Fault Bool
  | 0, _, _, _, _ => .ok true
  | n + 1, a, first1, b, first2 =>
    match a.read first1 with
    | .error e => .error e
    | .ok x =>
      match b.read first2 with
      | .error e => .error e
      | .ok y => if x = y then equal_loop n a (first1 + 1) b (first2 + 1) else .ok false

/-- Call `std::equal(first1, last1, first2, last2)` on random access
iterators: ranges of different lengths are unequal without any element being
read. -/
def std_equal [DecidableEq α] (a : ArrayPtr α) (first1 last1 : Nat) (b : ArrayPtr α)
    (first2 last2 : Nat) : Except Fault Bool :=
  if last1 < first1 ∨ last2 < first2 then .error .undefined_behaviour
  else if last1 - first1 ≠ last2 - first2 then .ok false
  else equal_loop (last1 - first1) a first1 b first2

/-- Loop of `std::lexicographical_compare`, with `n1` and `n2` elements left
in the two ranges. -/
def lexicographical_loop [LT α] [DecidableRel (fun (x y : α) => x < y)] :
    Nat → Nat → ArrayPtr α → Nat → ArrayPtr α → Nat → Except Fault Bool
  | 0, n2, _, _, _, _ => .ok (decide (n2 ≠ 0))
  | _ + 1, 0, _, _, _, _ => .ok false
  | n1 + 1, n2 + 1, a, first1, b, first2 =>
    match a.read first1 with
    | .error e => .error e
    | .ok x =>
      match b.read first2 with
      | .error e => .error e
      | .ok y =>
        if x < y then .ok true
        else if y < x then .ok false
        else lexicographical_loop n1 n2 a (first1 + 1) b (first2 + 1)

/-- Call `std::lexicographical_compare(first1, last1, first2, last2)`. -/
def std_lexicographical_compare [LT α] [DecidableRel (fun (x y : α) => x < y)]
    (a : ArrayPtr α) (first1 last1 : Nat) (b : ArrayPtr α) (first2 last2 : Nat) :
    Except Fault Bool :=
  if last1 < first1 ∨ last2 < first2 then .error .undefined_behaviour
  else lexicographical_loop (last1 - first1) (last2 - first2) a first1 b first2

namespace SimpleVector

/-- Function `operator==`. -/
def eq [DecidableEq α] (lhs rhs : SimpleVector α) : Except Fault Bool :=
  std_equal lhs.items_ lhs.begin_ lhs.end_ rhs.items_ rhs.begin_ rhs.end_

/-- Function `operator!=`. -/
def ne [DecidableEq α] (lhs rhs : SimpleVector α) : Except Fault Bool :=
  match eq lhs rhs with
  | .error e => .error e
  | .ok b => .ok (!b)

/-- Function `operator<`. -/
def lt [LT α] [DecidableRel (fun (x y : α) => x < y)] (lhs rhs : SimpleVector α) :
    Except Fault Bool :=
  std_lexicographical_compare lhs.items_ lhs.begin_ lhs.end_ rhs.items_ rhs.begin_ rhs.end_

/-- Function `operator>`. -/
def gt [LT α] [DecidableRel (fun (x y : α) => x < y)] (lhs rhs : SimpleVector α) :
    Except Fault Bool :=
  std_lexicographical_compare rhs.items_ rhs.begin_ rhs.end_ lhs.items_ lhs.begin_ lhs.end_

/-- Function `operator<=`. -/
def le [LT α] [DecidableRel (fun (x y : α) => x < y)] (lhs rhs : SimpleVector α) :
    Except Fault Bool :=
  match gt lhs rhs with
  | .error e => .error e
  | .ok b => .ok (!b)

/-- Function `operator>=`. -/
def ge [LT α] [DecidableRel (fun (x y : α) => x < y)] (lhs rhs : SimpleVector α) :
    Except Fault Bool :=
  match lt lhs rhs with
  | .error e => .error e
  | .ok b => .ok (!b)

end SimpleVector

/-- What a slot that held `x` holds after `x` was transferred out of it. -/
def leftover [Movable α] (t : Transfer) (x : α) : α :=
  match t with
  | .by_copy => x
  | .by_move => Movable.residue x

/-- Outcome of the loop of `std::lexicographical_compare` on two ranges,
given as the lists of their elements. -/
def lex_lt [LT α] [DecidableRel (fun (x y : α) => x < y)] : List α → List α → Bool
  | [], [] => false
  | [], _ :: _ => true
  | _ :: _, [] => false
  | x :: X, y :: Y => if x < y then true else if y < x then false else lex_lt X Y

/-- Lexicographic order of two element sequences as the specification words
it: either there is a first position, below both lengths, at which the
elements differ, and there the element of `X` is less than that of `Y`; or
there is no position at which the elements differ and `X` is strictly
shorter than `Y`. -/
def LexLess [LT α] (X Y : List α) : Prop :=
  (∃ (i : Nat) (x y : α), X[i]? = some x ∧ Y[i]? = some y ∧ x ≠ y
      ∧ (∀ j : Nat, j < i → X[j]? = Y[j]?) ∧ x < y)
  ∨ ((∀ (i : Nat) (x y : α), X[i]? = some x → Y[i]? = some y → x = y)
      ∧ X.length < Y.length)

/-! # Lemmas -/

/-! ## Slot access on a store split around the accessed slot -/

theorem get_mid (A B : List α) (x : α) : (A ++ x :: B).get? A.length = some x := by
  induction A with
  | nil => rfl
  | cons a A ih => simpa using ih

theorem read_mid (A B : List α) (x : α) (i : Nat) (h : i = A.length) :
    (ArrayPtr.mk (A ++ x :: B)).read i = .ok x := by
  subst h
  simp only [ArrayPtr.read, get_mid]

theorem write_mid (A B : List α) (y x : α) (i : Nat) (h : i = A.length) :
    (ArrayPtr.mk (A ++ y :: B)).write i x = .ok ⟨A ++ x :: B⟩ := by
  subst h
  simp [ArrayPtr.write]

theorem vacate_mid [Movable α] (t : Transfer) (A B : List α) (x : α) (i : Nat)
    (h : i = A.length) :
    vacate t ⟨A ++ x :: B⟩ i x = .ok ⟨A ++ leftover t x :: B⟩ := by
  cases t
  · simp [vacate, leftover]
  · simp [vacate, leftover, write_mid A B x _ i h]

theorem read_lt (p : ArrayPtr α) (j : Nat) (h : j < p.raw_ptr_.length) :
    ∃ y, p.read j = .ok y := by
  refine ⟨p.raw_ptr_[j], ?_⟩
  simp [ArrayPtr.read, List.getElem?_eq_getElem h]

theorem assign_within_spec [Movable α] (t : Transfer) (A B : List α) (g : α) (i n : Nat)
    (value : Ref α) (hi : i = A.length) (hfit : value.fits t n)
    (hn : n ≤ (A ++ g :: B).length) :
    ∃ y, assign_within t ⟨A ++ g :: B⟩ i value = .ok ⟨A ++ y :: B⟩
      ∧ ∀ x, value = .outside x → y = x := by
  cases value with
  | outside x =>
    refine ⟨x, ?_, ?_⟩
    · simp only [assign_within, write_mid A B g x i hi]
    · intro x2 h
      cases h
      rfl
  | slot j =>
    obtain ⟨ht, hj⟩ := hfit
    subst ht
    obtain ⟨y, hy⟩ := read_lt ⟨A ++ g :: B⟩ j (by show j < (A ++ g :: B).length; omega)
    refine ⟨y, ?_, ?_⟩
    · simp only [assign_within, hy, write_mid A B g y i hi, vacate]
    · intro x h
      cases h

theorem assign_across_spec [Movable α] (t : Transfer) (src : ArrayPtr α) (A B : List α)
    (g : α) (i n : Nat) (value : Ref α) (hi : i = A.length) (hfit : value.fits t n)
    (hn : n ≤ src.raw_ptr_.length) :
    ∃ y, assign_across t src ⟨A ++ g :: B⟩ i value = .ok (src, ⟨A ++ y :: B⟩)
      ∧ ∀ x, value = .outside x → y = x := by
  cases value with
  | outside x =>
    refine ⟨x, ?_, ?_⟩
    · simp only [assign_across, write_mid A B g x i hi]
    · intro x2 h
      cases h
      rfl
  | slot j =>
    obtain ⟨ht, hj⟩ := hfit
    subst ht
    obtain ⟨y, hy⟩ := read_lt src j (by omega)
    refine ⟨y, ?_, ?_⟩
    · simp only [assign_across, hy, write_mid A B g y i hi, vacate]
    · intro x h
      cases h

/-! ## Closed forms of the loops -/

theorem copy_loop_spec [Movable α] (t : Transfer) (X : List α) :
    ∀ (A B C Y D : List α) (n first d : Nat), n = X.length → Y.length = X.length →
      first = A.length → d = C.length →
      copy_loop t n ⟨A ++ X ++ B⟩ first ⟨C ++ Y ++ D⟩ d
        = .ok (⟨A ++ X.map (leftover t) ++ B⟩, ⟨C ++ X ++ D⟩) := by
  induction X with
  | nil =>
    intro A B C Y D n first d hn hY _ _
    subst hn
    have : Y = [] := List.length_eq_zero.mp hY
    subst this
    simp [copy_loop]
  | cons x X ih =>
    intro A B C Y D n first d hn hY hf hd
    subst hn
    cases Y with
    | nil => simp at hY
    | cons y Y =>
      have hY1 : Y.length = X.length := by simpa using hY
      have h := ih (A ++ [leftover t x]) B (C ++ [x]) Y D X.length (first + 1) (d + 1) rfl hY1
        (by simp [hf]) (by simp [hd])
      simp only [List.length_cons, copy_loop, List.append_assoc, List.cons_append,
        read_mid A (X ++ B) x first hf, write_mid C (Y ++ D) y x d hd,
        vacate_mid t A (X ++ B) x first hf]
      simpa using h

theorem copy_within_loop_spec [Movable α] (t : Transfer) (X : List α) :
    ∀ (A B : List α) (h : α) (n first d : Nat), n = X.length →
      first = A.length + 1 → d = A.length →
      ∃ g, copy_within_loop t n ⟨A ++ h :: (X ++ B)⟩ first d = .ok ⟨A ++ (X ++ g :: B)⟩ := by
  induction X with
  | nil =>
    intro A B h n first d hn _ _
    subst hn
    exact ⟨h, by simp [copy_within_loop]⟩
  | cons x X ih =>
    intro A B h n first d hn hf hd
    subst hn
    obtain ⟨g, hg⟩ := ih (A ++ [x]) B (leftover t x) X.length (first + 1) (d + 1) rfl
      (by simp [hf]) (by simp [hd])
    refine ⟨g, ?_⟩
    have r : (ArrayPtr.mk (A ++ h :: (x :: (X ++ B)))).read first = .ok x := by
      have := read_mid (A ++ [h]) (X ++ B) x first (by simp [hf])
      simpa using this
    have w : (ArrayPtr.mk (A ++ h :: (x :: (X ++ B)))).write d x
        = .ok ⟨A ++ x :: (x :: (X ++ B))⟩ := write_mid A _ h x d hd
    have c : vacate t ⟨A ++ x :: (x :: (X ++ B))⟩ first x
        = .ok ⟨A ++ x :: (leftover t x :: (X ++ B))⟩ := by
      have := vacate_mid t (A ++ [x]) (X ++ B) x first (by simp [hf])
      simpa using this
    simp only [List.length_cons, copy_within_loop, List.cons_append, r, w, c]
    simpa using hg

theorem copy_backward_loop_spec [Movable α] (t : Transfer) (X : List α) :
    ∀ (A B : List α) (h : α) (n last d_last : Nat), n = X.length →
      last = A.length + X.length → d_last = last + 1 →
      ∃ g, copy_backward_loop t n ⟨A ++ (X ++ h :: B)⟩ last d_last
        = .ok ⟨A ++ g :: (X ++ B)⟩ := by
  induction X using List.reverseRecOn with
  | nil =>
    intro A B h n last d_last hn _ _
    subst hn
    exact ⟨h, by simp [copy_backward_loop]⟩
  | append_singleton X x ih =>
    intro A B h n last d_last hn hl hd
    obtain ⟨g, hg⟩ := ih A (x :: B) (leftover t x) X.length (A.length + X.length)
      (A.length + X.length + 1) rfl rfl rfl
    refine ⟨g, ?_⟩
    have hn1 : n = X.length + 1 := by simp [hn]
    have hl1 : last = (A.length + X.length) + 1 := by simp [hl]; omega
    have hd1 : d_last = (A.length + X.length + 1) + 1 := by omega
    subst hn1 hl1 hd1
    have r : (ArrayPtr.mk (A ++ (X ++ [x] ++ h :: B))).read (A.length + X.length) = .ok x := by
      have := read_mid (A ++ X) (h :: B) x (A.length + X.length) (by simp)
      simpa using this
    have w : (ArrayPtr.mk (A ++ (X ++ [x] ++ h :: B))).write (A.length + X.length + 1) x
        = .ok ⟨A ++ (X ++ x :: x :: B)⟩ := by
      have := write_mid (A ++ X ++ [x]) B h x (A.length + X.length + 1)
        (by simp [Nat.add_assoc])
      simpa using this
    have c : vacate t ⟨A ++ (X ++ x :: x :: B)⟩ (A.length + X.length) x
        = .ok ⟨A ++ (X ++ leftover t x :: x :: B)⟩ := by
      have := vacate_mid t (A ++ X) (x :: B) x (A.length + X.length) (by simp)
      simpa using this
    simp only [copy_backward_loop, r, w, c]
    simpa using hg

theorem fill_loop_spec (x : α) (Y : List α) :
    ∀ (A B : List α) (n first : Nat), n = Y.length → first = A.length →
      fill_loop n ⟨A ++ (Y ++ B)⟩ first x = .ok ⟨A ++ (List.replicate n x ++ B)⟩ := by
  induction Y with
  | nil =>
    intro A B n first hn _
    subst hn
    simp [fill_loop]
  | cons y Y ih =>
    intro A B n first hn hf
    subst hn
    have h := ih (A ++ [x]) B Y.length (first + 1) rfl (by simp [hf])
    have w : (ArrayPtr.mk (A ++ (y :: Y ++ B))).write first x = .ok ⟨A ++ x :: (Y ++ B)⟩ :=
      write_mid A _ y x first hf
    simp only [List.length_cons, fill_loop, w]
    simpa [List.replicate_succ] using h

/-! ## Counters of a well-formed array do not wrap -/

theorem incr_eq (n : Nat) (h : n ≤ PTRDIFF_MAX) : incr n = n + 1 := by
  unfold incr SIZE_MOD
  unfold PTRDIFF_MAX at h
  exact Nat.mod_eq_of_lt (by omega)

theorem decr_eq (n : Nat) (h0 : 0 < n) (h : n ≤ SIZE_MOD) : decr n = n - 1 := by
  unfold decr
  unfold SIZE_MOD at *
  omega

theorem twice_eq (n : Nat) (h : n ≤ PTRDIFF_MAX) : twice n = 2 * n := by
  unfold twice SIZE_MOD
  unfold PTRDIFF_MAX at h
  rw [Nat.mod_eq_of_lt (by omega)]
  omega

namespace SimpleVector

theorem end_eq (v : SimpleVector α) (h : v.size_ ≤ v.items_.raw_ptr_.length) :
    v.end_ = v.size_ := by
  unfold end_ ArrayPtr.valid
  cases hr : v.items_.raw_ptr_ with
  | nil => rw [hr] at h; simp at h; simp [h]
  | cons a l => simp

theorem split_store (v : SimpleVector α) (h : v.size_ ≤ v.items_.raw_ptr_.length) :
    v.items_ = ⟨v.elems ++ v.items_.raw_ptr_.drop v.size_⟩ ∧ v.elems.length = v.size_ := by
  constructor
  · simp [elems]
  · simp [elems, h]

theorem alloc_split [Inhabited α] (n k : Nat) (h : k ≤ n) :
    (ArrayPtr.alloc n : ArrayPtr α)
      = ⟨List.replicate k default ++ List.replicate (n - k) default⟩ := by
  unfold ArrayPtr.alloc
  rw [List.append_replicate_replicate]
  congr 2
  omega

theorem PushBack_ok [Inhabited α] [Movable α] (t : Transfer) (v : SimpleVector α) (x : α)
    (h : WellFormed v) :
    ∃ R, PushBack t v x
        = .ok ⟨⟨v.elems ++ x :: R⟩, v.size_ + 1, grown v.size_ v.capacity_⟩
      ∧ v.elems.length = v.size_
      ∧ v.size_ + 1 + R.length = grown v.size_ v.capacity_ := by
  obtain ⟨hlen, hsz, hcap⟩ := h
  obtain ⟨hsplit, hE⟩ := split_store v (by omega)
  have hend := end_eq v (by omega)
  have hincr := incr_eq v.size_ (by omega)
  by_cases hlt : v.size_ < v.capacity_
  · cases hR : v.items_.raw_ptr_.drop v.size_ with
    | nil =>
      have := congrArg List.length hR
      simp at this
      omega
    | cons r R =>
      refine ⟨R, ?_, hE, ?_⟩
      · rw [hR] at hsplit
        have w := write_mid v.elems R r x v.size_ hE.symm
        simp only [PushBack, hlt, if_true, hsplit, w, hincr, grown]
      · have := congrArg List.length hR
        simp at this
        simp [grown, hlt]
        omega
  · have heq : v.size_ = v.capacity_ := by omega
    have hR : v.items_.raw_ptr_.drop v.size_ = [] := by simp; omega
    rw [hR, List.append_nil] at hsplit
    have hg : grown v.size_ v.capacity_ = if v.capacity_ = 0 then 1 else twice v.capacity_ := by
      simp only [grown, hlt, if_false, twice_eq v.capacity_ hcap]
    have hgt : v.size_ + 1 ≤ grown v.size_ v.capacity_ := by
      simp only [grown, hlt, if_false]
      split <;> omega
    refine ⟨List.replicate (grown v.size_ v.capacity_ - v.size_ - 1) default, ?_, hE, ?_⟩
    · have ha := alloc_split (α := α) (grown v.size_ v.capacity_) v.size_ (by omega)
      have hc := copy_loop_spec t v.elems [] [] [] (List.replicate v.size_ default)
        (List.replicate (grown v.size_ v.capacity_ - v.size_) default) v.size_ 0 0
        hE.symm (by simp [hE]) rfl rfl
      simp only [List.nil_append, List.append_nil] at hc
      have hrep : List.replicate (grown v.size_ v.capacity_ - v.size_) (default : α)
          = default :: List.replicate (grown v.size_ v.capacity_ - v.size_ - 1) default := by
        rw [← List.replicate_succ]
        congr 1
        omega
      have w := write_mid v.elems
        (List.replicate (grown v.size_ v.capacity_ - v.size_ - 1) default) default x v.size_
        hE.symm
      rw [hrep] at hc ha
      simp only [PushBack, hlt, if_false, ← hg, ha, std_copy, begin_, hend, Nat.not_lt_zero,
        Nat.sub_zero, hsplit, hc, w, hincr]
    · simp
      omega

theorem Insert_ok [Inhabited α] [Movable α] (t : Transfer) (v : SimpleVector α) (p : Nat)
    (value : Ref α) (h : WellFormed v) (hp : p ≤ v.size_) (hadm : admits t v value) :
    ∃ y R, Insert t v p value
        = .ok (⟨⟨v.elems.take p ++ y :: (v.elems.drop p ++ R)⟩, v.size_ + 1,
            grown v.size_ v.capacity_⟩, p)
      ∧ v.elems.length = v.size_
      ∧ v.size_ + 1 + R.length = grown v.size_ v.capacity_
      ∧ ∀ x, value = .outside x → y = x := by
  obtain ⟨hlen, hsz, hcap⟩ := h
  obtain ⟨hsplit, hE⟩ := split_store v (by omega)
  have hend := end_eq v (by omega)
  have hincr := incr_eq v.size_ (by omega)
  have hPS : v.elems = v.elems.take p ++ v.elems.drop p := (List.take_append_drop p _).symm
  have hP : (v.elems.take p).length = p := by simp [hE, hp]
  have hS : (v.elems.drop p).length = v.size_ - p := by simp [hE]
  have hnl : ¬ v.size_ < p := by omega
  generalize hPdef : v.elems.take p = P at hPS hP
  generalize hSdef : v.elems.drop p = S at hPS hS
  by_cases hlt : v.size_ < v.capacity_
  · cases hR : v.items_.raw_ptr_.drop v.size_ with
    | nil =>
      have := congrArg List.length hR
      simp at this
      omega
    | cons r R =>
      rw [hR, hPS, List.append_assoc] at hsplit
      obtain ⟨g, hg⟩ := copy_backward_loop_spec t S P R r (v.size_ - p) v.size_ (v.size_ + 1)
        hS.symm (by omega) rfl
      obtain ⟨y, hy, hyx⟩ := assign_within_spec t P (S ++ R) g p v.size_ value hP.symm hadm
        (by simp [hP, hS]; omega)
      refine ⟨y, R, ?_, hE, ?_, hyx⟩
      · simp only [Insert, hlt, if_true, begin_, Nat.sub_zero, std_copy_backward, hend, hnl,
          if_false, hsplit, hg, hy, hincr, grown]
      · have := congrArg List.length hR
        simp at this
        simp [grown, hlt]
        omega
  · have heq : v.size_ = v.capacity_ := by omega
    have hR : v.items_.raw_ptr_.drop v.size_ = [] := by simp; omega
    rw [hR, List.append_nil, hPS] at hsplit
    have hg : grown v.size_ v.capacity_ = if v.capacity_ = 0 then 1 else twice v.capacity_ := by
      simp only [grown, hlt, if_false, twice_eq v.capacity_ hcap]
    have hgt : v.size_ + 1 ≤ grown v.size_ v.capacity_ := by
      simp only [grown, hlt, if_false]
      split <;> omega
    generalize grown v.size_ v.capacity_ = G at hg hgt
    have ha : (ArrayPtr.alloc G : ArrayPtr α)
        = ⟨List.replicate p default ++ default :: (List.replicate (v.size_ - p) default
            ++ List.replicate (G - v.size_ - 1) default)⟩ := by
      unfold ArrayPtr.alloc
      rw [List.append_replicate_replicate, ← List.replicate_succ,
        List.append_replicate_replicate]
      congr 2
      omega
    have hc1 := copy_loop_spec t P [] S [] (List.replicate p default)
      (default :: (List.replicate (v.size_ - p) default
            ++ List.replicate (G - v.size_ - 1) default)) p 0 0
      hP.symm (by simp [hP]) rfl rfl
    simp only [List.nil_append] at hc1
    obtain ⟨y, hy, hyx⟩ := assign_across_spec t ⟨P.map (leftover t) ++ S⟩ P
      (List.replicate (v.size_ - p) default ++ List.replicate (G - v.size_ - 1) default)
      default p v.size_ value hP.symm hadm (by simp [hP, hS]; omega)
    have hc2 := copy_loop_spec t S (P.map (leftover t)) [] (P ++ [y])
      (List.replicate (v.size_ - p) default) (List.replicate (G - v.size_ - 1) default)
      (v.size_ - p) p (p + 1) hS.symm (by simp [hS]) (by simp [hP]) (by simp [hP])
    simp only [List.append_nil, List.append_assoc, List.singleton_append,
      List.cons_append, List.nil_append] at hc2
    refine ⟨y, List.replicate (G - v.size_ - 1) default, ?_, hE, ?_, hyx⟩
    · simp only [Insert, hlt, if_false, ← hg, ha, std_copy, begin_, hend, Nat.not_lt_zero,
        Nat.sub_zero, hsplit, hc1, hy, hnl, hc2, hincr]
    · simp
      omega

theorem Erase_ok [Movable α] (v : SimpleVector α) (p : Nat)
    (hlen : v.size_ ≤ v.items_.raw_ptr_.length) (hp : p < v.size_)
    (hmax : v.size_ ≤ SIZE_MOD) :
    ∃ g, Erase v p
        = .ok (⟨⟨v.elems.take p ++ (v.elems.drop (p + 1)
            ++ g :: v.items_.raw_ptr_.drop v.size_)⟩, v.size_ - 1, v.capacity_⟩, p)
      ∧ v.elems.length = v.size_ := by
  obtain ⟨hsplit, hE⟩ := split_store v hlen
  have hend := end_eq v hlen
  have hdecr := decr_eq v.size_ (by omega) hmax
  have hnl : ¬ v.size_ < p + 1 := by omega
  have hP : (v.elems.take p).length = p := by simp [hE]; omega
  have hS : (v.elems.drop (p + 1)).length = v.size_ - (p + 1) := by simp [hE]
  have hpE : p < v.elems.length := by omega
  have hPS : v.elems = v.elems.take p ++ v.elems[p] :: v.elems.drop (p + 1) := by
    rw [← List.drop_eq_getElem_cons hpE, List.take_append_drop]
  generalize v.items_.raw_ptr_.drop v.size_ = Rest at hsplit ⊢
  obtain ⟨g, hg⟩ := copy_within_loop_spec Transfer.by_move (v.elems.drop (p + 1))
    (v.elems.take p) Rest v.elems[p] (v.size_ - (p + 1)) (p + 1) p
    hS.symm (by rw [hP]) hP.symm
  refine ⟨g, ?_, hE⟩
  have hst : v.items_ = ⟨v.elems.take p ++ v.elems[p] :: (v.elems.drop (p + 1) ++ Rest)⟩ := by
    rw [← List.cons_append, ← List.append_assoc, ← hPS]
    exact hsplit
  simp only [Erase, begin_, Nat.sub_zero, std_copy_within, hend, hnl, if_false, hdecr, hst, hg]

end SimpleVector

theorem map_leftover_copy [Movable α] (X : List α) :
    X.map (leftover Transfer.by_copy) = X := by
  induction X with
  | nil => rfl
  | cons x X ih => simp [leftover, ih]

namespace SimpleVector

theorem copy_fresh [Inhabited α] [Movable α] (t : Transfer) (v : SimpleVector α) (n : Nat)
    (hread : Readable v) (hn : v.size_ ≤ n) :
    std_copy t v.items_ v.begin_ v.end_ (ArrayPtr.alloc n) 0
      = .ok (⟨v.elems.map (leftover t) ++ v.items_.raw_ptr_.drop v.size_⟩,
             ⟨v.elems ++ List.replicate (n - v.size_) default⟩) := by
  obtain ⟨hsplit, hE⟩ := split_store v hread
  have hend := end_eq v hread
  have ha := alloc_split (α := α) n v.size_ hn
  have hc := copy_loop_spec t v.elems [] (v.items_.raw_ptr_.drop v.size_) []
    (List.replicate v.size_ default) (List.replicate (n - v.size_) default) v.size_ 0 0
    hE.symm (by simp [hE]) rfl rfl
  simp only [List.nil_append] at hc
  rw [← hsplit] at hc
  simp only [std_copy, begin_, hend, Nat.not_lt_zero, if_false, Nat.sub_zero, ha, hc]

end SimpleVector

theorem equal_loop_spec [DecidableEq α] (X : List α) :
    ∀ (Y A B C D : List α) (n first1 first2 : Nat), n = X.length → Y.length = X.length →
      first1 = A.length → first2 = C.length →
      equal_loop n ⟨A ++ (X ++ B)⟩ first1 ⟨C ++ (Y ++ D)⟩ first2 = .ok (decide (X = Y)) := by
  induction X with
  | nil =>
    intro Y A B C D n first1 first2 hn hY _ _
    subst hn
    have : Y = [] := List.length_eq_zero.mp hY
    subst this
    simp [equal_loop]
  | cons x X ih =>
    intro Y A B C D n first1 first2 hn hY h1 h2
    subst hn
    cases Y with
    | nil => simp at hY
    | cons y Y =>
      have hY1 : Y.length = X.length := by simpa using hY
      have h := ih Y (A ++ [x]) B (C ++ [y]) D X.length (first1 + 1) (first2 + 1) rfl hY1
        (by simp [h1]) (by simp [h2])
      simp only [List.append_assoc, List.singleton_append] at h
      simp only [List.length_cons, equal_loop, List.cons_append,
        read_mid A (X ++ B) x first1 h1, read_mid C (Y ++ D) y first2 h2, h]
      by_cases hxy : x = y
      · simp [hxy]
      · simp [hxy]

namespace SimpleVector

theorem eq_ok [DecidableEq α] (a b : SimpleVector α) (ha : Readable a) (hb : Readable b) :
    eq a b = .ok (decide (a.elems = b.elems)) := by
  obtain ⟨hsa, hEa⟩ := split_store a ha
  obtain ⟨hsb, hEb⟩ := split_store b hb
  have hea := end_eq a ha
  have heb := end_eq b hb
  by_cases hlen : a.size_ = b.size_
  · have h := equal_loop_spec a.elems b.elems [] (a.items_.raw_ptr_.drop a.size_) []
      (b.items_.raw_ptr_.drop b.size_) a.size_ 0 0 hEa.symm (by omega) rfl rfl
    simp only [List.nil_append] at h
    rw [← hsa, ← hsb, hlen] at h
    simp only [eq, std_equal, begin_, hea, heb, Nat.not_lt_zero, or_self, if_false,
      Nat.sub_zero, hlen, ne_eq, not_true_eq_false, h]
  · have hne : a.elems ≠ b.elems := by
      intro h
      apply hlen
      rw [← hEa, ← hEb, h]
    simp [eq, std_equal, begin_, hea, heb, hlen, hne]

theorem Resize_ok [Inhabited α] [Movable α] (v : SimpleVector α) (n : Nat)
    (h : WellFormed v) :
    ∃ R, Resize v n
        = .ok ⟨⟨v.elems.take n ++ (List.replicate (n - v.size_) default ++ R)⟩, n,
            if n ≤ v.capacity_ then v.capacity_ else max n (2 * v.capacity_)⟩
      ∧ v.elems.length = v.size_ := by
  obtain ⟨hlen, hsz, hcap⟩ := h
  obtain ⟨hsplit, hE⟩ := split_store v (by omega)
  by_cases h1 : n ≤ v.size_
  · refine ⟨v.elems.drop n ++ v.items_.raw_ptr_.drop v.size_, ?_, hE⟩
    have hn : n ≤ v.capacity_ := by omega
    have h0 : n - v.size_ = 0 := by omega
    simp only [Resize, h1, if_true, hn, h0, List.replicate_zero, List.nil_append]
    rw [← List.append_assoc, List.take_append_drop, ← hsplit]
  · by_cases h2 : n ≤ v.capacity_
    · refine ⟨v.items_.raw_ptr_.drop n, ?_, hE⟩
      have hf := fill_loop_spec (default : α) ((v.items_.raw_ptr_.drop v.size_).take (n - v.size_))
        v.elems (v.items_.raw_ptr_.drop n) (n - v.size_) v.size_
        (by simp; omega) hE.symm
      have hst : v.items_ = ⟨v.elems ++ ((v.items_.raw_ptr_.drop v.size_).take (n - v.size_)
          ++ v.items_.raw_ptr_.drop n)⟩ := by
        have : v.items_.raw_ptr_.drop n
            = (v.items_.raw_ptr_.drop v.size_).drop (n - v.size_) := by
          rw [List.drop_drop]
          congr 1
          omega
        rw [this, List.take_append_drop]
        exact hsplit
      rw [← hst] at hf
      have ht : v.elems.take n = v.elems := List.take_of_length_le (by omega)
      simp only [Resize, h1, if_false, h2, if_true, hf, ht]
    · refine ⟨List.replicate (max n (2 * v.capacity_) - n) default, ?_, hE⟩
      have hc := copy_fresh Transfer.by_move v (max n (2 * v.capacity_))
        (by unfold Readable; omega) (by omega)
      have hf := fill_loop_spec (default : α) (List.replicate (n - v.size_) default)
        v.elems (List.replicate (max n (2 * v.capacity_) - n) default) (n - v.size_) v.size_
        (by simp) hE.symm
      have hrep : List.replicate (max n (2 * v.capacity_) - v.size_) (default : α)
          = List.replicate (n - v.size_) default
            ++ List.replicate (max n (2 * v.capacity_) - n) default := by
        rw [List.append_replicate_replicate]
        congr 1
        omega
      rw [hrep] at hc
      have ht : v.elems.take n = v.elems := List.take_of_length_le (by omega)
      simp only [Resize, h1, if_false, h2, twice_eq v.capacity_ hcap, hc, hf, ht]

theorem index_lt (v : SimpleVector α) (i : Nat) (hi : i < v.size_) :
    v.index i = (ArrayPtr.mk v.elems).read i := by
  simp [index, ArrayPtr.read, elems, List.getElem?_take, hi]

theorem elems_mk (E R : List α) (n c : Nat) (h : n = E.length) :
    (SimpleVector.mk ⟨E ++ R⟩ n c).elems = E := by
  subst h
  simp [elems]

end SimpleVector

/-! # The claims -/

namespace SimpleVector

/-- C1: on a well-formed array, `PushBack` (either overload, with spare
capacity or not) returns an array whose size is the old size plus one, whose
elements are the old elements in the same order followed by the pushed value:
every position below the old size reads as before and the position equal to
the old size reads the pushed value. -/
theorem C1_PushBack_appends [Inhabited α] [Movable α] (t : Transfer) (v : SimpleVector α)
    (x : α) (h : WellFormed v) :
    ∃ w, PushBack t v x = .ok w
      ∧ w.size_ = v.size_ + 1
      ∧ w.elems = v.elems ++ [x]
      ∧ v.elems.length = v.size_
      ∧ (∀ i, i < v.size_ → w.index i = v.index i)
      ∧ w.index v.size_ = .ok x := by
  obtain ⟨R, hpush, hE, _⟩ := PushBack_ok t v x h
  have hel : (SimpleVector.mk ⟨v.elems ++ x :: R⟩ (v.size_ + 1)
      (grown v.size_ v.capacity_)).elems = v.elems ++ [x] := by
    have := elems_mk (v.elems ++ [x]) R (v.size_ + 1) (grown v.size_ v.capacity_)
      (by simp [hE])
    simpa using this
  refine ⟨_, hpush, rfl, hel, hE, ?_, ?_⟩
  · intro i hi
    rw [index_lt _ i (Nat.lt_succ_of_lt hi), index_lt v i hi, hel]
    simp [ArrayPtr.read, List.getElem?_append_left, hE, hi]
  · rw [index_lt _ v.size_ (Nat.lt_succ_self _), hel]
    have := read_mid v.elems [] x v.size_ hE.symm
    simpa using this

/-- Instances of C1 in the reallocating branch (a full array of capacity 2)
and in the in-place branch (size 1, capacity 2). -/
theorem C1_PushBack_appends_witness :
    (WellFormed (⟨⟨[1, 2]⟩, 2, 2⟩ : SimpleVector Nat)
      ∧ ∃ w, PushBack .by_copy (⟨⟨[1, 2]⟩, 2, 2⟩ : SimpleVector Nat) 7 = .ok w
        ∧ w.size_ = 2 + 1 ∧ w.elems = [1, 2] ++ [7])
    ∧ (WellFormed (⟨⟨[1, 9]⟩, 1, 2⟩ : SimpleVector Nat)
      ∧ ∃ w, PushBack .by_move (⟨⟨[1, 9]⟩, 1, 2⟩ : SimpleVector Nat) 7 = .ok w
        ∧ w.size_ = 1 + 1 ∧ w.elems = [1] ++ [7]) := by
  refine ⟨⟨by decide, ?_⟩, ⟨by decide, ?_⟩⟩
  · obtain ⟨w, h1, h2, h3, _⟩ :=
      C1_PushBack_appends .by_copy (⟨⟨[1, 2]⟩, 2, 2⟩ : SimpleVector Nat) 7 (by decide)
    exact ⟨w, h1, h2, h3⟩
  · obtain ⟨w, h1, h2, h3, _⟩ :=
      C1_PushBack_appends .by_move (⟨⟨[1, 9]⟩, 1, 2⟩ : SimpleVector Nat) 7 (by decide)
    exact ⟨w, h1, h2, h3⟩

/-- C2: on a well-formed array with `size == capacity`, `PushBack` and
`Insert` set the capacity to 1 when it was 0 and to twice the old capacity
otherwise; with `size < capacity` they leave the capacity as it is, whether
the argument of `Insert` is an object outside the array or an element of the
array. While 0 to 8 values are pushed onto a default-constructed array the
capacities are 0, 1, 2, 4, 4, 8, 8, 8, 8. -/
theorem C2_growth_of_capacity [Inhabited α] [Movable α] (t : Transfer) (v : SimpleVector α)
    (p : Nat) (x : α) (value : Ref α) (h : WellFormed v) (hp : p ≤ v.size_)
    (hadm : admits t v value) :
    (∃ w1 w2 q, PushBack t v x = .ok w1 ∧ Insert t v p value = .ok (w2, q)
      ∧ (v.size_ = v.capacity_ →
          w1.capacity_ = (if v.capacity_ = 0 then 1 else 2 * v.capacity_)
          ∧ w2.capacity_ = (if v.capacity_ = 0 then 1 else 2 * v.capacity_))
      ∧ (v.size_ < v.capacity_ →
          w1.capacity_ = v.capacity_ ∧ w2.capacity_ = v.capacity_))
    ∧ (List.range 9).map (fun n =>
          Except.map capacity_
            (PushBack_all .by_copy (empty : SimpleVector Nat) (List.replicate n 0)))
        = [.ok 0, .ok 1, .ok 2, .ok 4, .ok 4, .ok 8, .ok 8, .ok 8, .ok 8] := by
  obtain ⟨R1, hpush, _, _⟩ := PushBack_ok t v x h
  obtain ⟨y, R2, hins, _, _⟩ := Insert_ok t v p value h hp hadm
  refine ⟨⟨_, _, _, hpush, hins, ?_, ?_⟩, rfl⟩
  · intro heq
    have : ¬ v.size_ < v.capacity_ := by omega
    simp [grown, this]
  · intro hlt
    simp [grown, hlt]

/-- Instances of C2: a full array of capacity 2 grows to capacity 4, an
empty array of capacity 0 to capacity 1, and an array with spare capacity
keeps its capacity, here with its own element 0 as the argument of
`Insert`. -/
theorem C2_growth_of_capacity_witness :
    (WellFormed (⟨⟨[1, 2]⟩, 2, 2⟩ : SimpleVector Nat) ∧ 1 ≤ 2
      ∧ ∃ w1 w2 q, PushBack .by_copy (⟨⟨[1, 2]⟩, 2, 2⟩ : SimpleVector Nat) 7 = .ok w1
        ∧ Insert .by_copy (⟨⟨[1, 2]⟩, 2, 2⟩ : SimpleVector Nat) 1 (.outside 7) = .ok (w2, q)
        ∧ w1.capacity_ = 4 ∧ w2.capacity_ = 4)
    ∧ (WellFormed (empty : SimpleVector Nat)
      ∧ ∃ w1 w2 q, PushBack .by_copy (empty : SimpleVector Nat) 7 = .ok w1
        ∧ Insert .by_copy (empty : SimpleVector Nat) 0 (.outside 7) = .ok (w2, q)
        ∧ w1.capacity_ = 1 ∧ w2.capacity_ = 1)
    ∧ (WellFormed (⟨⟨[1, 9]⟩, 1, 2⟩ : SimpleVector Nat)
      ∧ admits .by_copy (⟨⟨[1, 9]⟩, 1, 2⟩ : SimpleVector Nat) (.slot 0)
      ∧ ∃ w1 w2 q, PushBack .by_copy (⟨⟨[1, 9]⟩, 1, 2⟩ : SimpleVector Nat) 7 = .ok w1
        ∧ Insert .by_copy (⟨⟨[1, 9]⟩, 1, 2⟩ : SimpleVector Nat) 0 (.slot 0) = .ok (w2, q)
        ∧ w1.capacity_ = 2 ∧ w2.capacity_ = 2) := by
  refine ⟨⟨by decide, by decide, ?_⟩, ⟨by decide, ?_⟩, ⟨by decide, by decide, ?_⟩⟩
  · obtain ⟨⟨w1, w2, q, h1, h2, h3, _⟩, _⟩ :=
      C2_growth_of_capacity .by_copy (⟨⟨[1, 2]⟩, 2, 2⟩ : SimpleVector Nat) 1 7 (.outside 7)
        (by decide) (by decide) (by decide)
    exact ⟨w1, w2, q, h1, h2, (h3 rfl).1, (h3 rfl).2⟩
  · obtain ⟨⟨w1, w2, q, h1, h2, h3, _⟩, _⟩ :=
      C2_growth_of_capacity .by_copy (empty : SimpleVector Nat) 0 7 (.outside 7)
        (by decide) (by decide) (by decide)
    exact ⟨w1, w2, q, h1, h2, (h3 rfl).1, (h3 rfl).2⟩
  · obtain ⟨⟨w1, w2, q, h1, h2, _, h4⟩, _⟩ :=
      C2_growth_of_capacity .by_copy (⟨⟨[1, 9]⟩, 1, 2⟩ : SimpleVector Nat) 0 7 (.slot 0)
        (by decide) (by decide) (by decide)
    exact ⟨w1, w2, q, h1, h2, (h4 (by decide)).1, (h4 (by decide)).2⟩

theorem Insert_of_outside_value [Inhabited α] [Movable α] (t : Transfer)
    (v : SimpleVector α) (p : Nat) (x : α) (h : WellFormed v) (hp : p ≤ v.size_) :
    ∃ w, Insert t v p (.outside x) = .ok (w, p)
      ∧ w.elems = v.elems.take p ++ x :: v.elems.drop p
      ∧ w.size_ = v.size_ + 1
      ∧ v.elems.length = v.size_
      ∧ w.index p = .ok x := by
  obtain ⟨y, R, hins, hE, _, hy⟩ := Insert_ok t v p (.outside x) h hp trivial
  have hyx : y = x := hy x rfl
  subst hyx
  have hel : (SimpleVector.mk ⟨v.elems.take p ++ y :: (v.elems.drop p ++ R)⟩ (v.size_ + 1)
      (grown v.size_ v.capacity_)).elems = v.elems.take p ++ y :: v.elems.drop p := by
    have := elems_mk (v.elems.take p ++ y :: v.elems.drop p) R (v.size_ + 1)
      (grown v.size_ v.capacity_) (by simp [hE]; omega)
    simpa using this
  refine ⟨_, hins, hel, rfl, hE, ?_⟩
  rw [index_lt _ p (by show p < v.size_ + 1; omega), hel]
  exact read_mid _ _ y p (by simp [hE, hp])

/-- C3 at the failing input: the array `v` made from the reservation hint 3
by `PushBack(10)`, `PushBack(20)` holds `{10, 20}` with spare capacity and is
well formed, and position 0 is in range. The call `v.Insert(v.begin(), v[1])`
binds `const Type& value` to slot 1, which holds 20. The spare-capacity
branch shifts the elements with `std::copy_backward` before it reads
`value`, so it inserts 10 and returns `{10, 10, 20}`, where C3 says
`{20, 10, 20}`. The reallocating branch of the same call, on the full array
`{10, 20}`, and the spare-capacity branch with 20 held outside the array
return `{20, 10, 20}`; and the scenario `PushBack(10)`, `PushBack(20)`,
`Insert(begin()+1, 15)` from empty returns `{10, 15, 20}`. -/
theorem C3_Insert_of_own_element :
    PushBack_all .by_copy (with_reserve 3 : SimpleVector Nat) [10, 20]
        = .ok ⟨⟨[10, 20, 0]⟩, 2, 3⟩
    ∧ WellFormed (⟨⟨[10, 20, 0]⟩, 2, 3⟩ : SimpleVector Nat)
    ∧ (⟨⟨[10, 20, 0]⟩, 2, 3⟩ : SimpleVector Nat).index 1 = .ok 20
    ∧ Insert .by_copy (⟨⟨[10, 20, 0]⟩, 2, 3⟩ : SimpleVector Nat) 0 (.slot 1)
        = .ok (⟨⟨[10, 10, 20]⟩, 3, 3⟩, 0)
    ∧ (⟨⟨[10, 10, 20]⟩, 3, 3⟩ : SimpleVector Nat).elems ≠ [20, 10, 20]
    ∧ Insert .by_copy (⟨⟨[10, 20]⟩, 2, 2⟩ : SimpleVector Nat) 0 (.slot 1)
        = .ok (⟨⟨[20, 10, 20, 0]⟩, 3, 4⟩, 0)
    ∧ Insert .by_copy (⟨⟨[10, 20, 0]⟩, 2, 3⟩ : SimpleVector Nat) 0 (.outside 20)
        = .ok (⟨⟨[20, 10, 20]⟩, 3, 3⟩, 0)
    ∧ (match PushBack_all .by_copy (empty : SimpleVector Nat) [10, 20] with
        | .ok a => Except.map (fun (r : SimpleVector Nat × Nat) => (r.1.elems, r.1.size_, r.2))
            (Insert .by_copy a 1 (.outside 15))
        | .error e => .error e) = .ok ([10, 15, 20], 3, 1) :=
  ⟨rfl, by decide, rfl, rfl, by decide, rfl, rfl, rfl⟩

theorem Erase_elems [Movable α] (v : SimpleVector α) (p : Nat)
    (hlen : v.size_ ≤ v.items_.raw_ptr_.length) (hp : p < v.size_)
    (hmax : v.size_ ≤ SIZE_MOD) :
    ∃ w, Erase v p = .ok (w, p)
      ∧ w.elems = v.elems.take p ++ v.elems.drop (p + 1)
      ∧ w.size_ + 1 = v.size_
      ∧ w.capacity_ = v.capacity_
      ∧ w.items_.raw_ptr_.length = v.items_.raw_ptr_.length := by
  obtain ⟨g, her, hE⟩ := Erase_ok v p hlen hp hmax
  refine ⟨_, her, ?_, ?_, rfl, ?_⟩
  · have := elems_mk (v.elems.take p ++ v.elems.drop (p + 1))
      (g :: v.items_.raw_ptr_.drop v.size_) (v.size_ - 1) v.capacity_ (by simp [hE]; omega)
    simpa using this
  · show v.size_ - 1 + 1 = v.size_
    omega
  · have h1 : v.elems.length = v.size_ := hE
    simp [hE]
    omega

/-- C4: on a well-formed array with element sequence `s` and for a position
`p < size`, `Erase` returns the array whose elements are `s` with the element
at `p` removed (the elements before `p` as they were, those after `p` one
position to the left), the size decreases by one, the capacity is unchanged
and the returned position is `p`. -/
theorem C4_Erase_at_position [Movable α] (v : SimpleVector α) (p : Nat)
    (h : WellFormed v) (hp : p < v.size_) :
    ∃ w, Erase v p = .ok (w, p)
      ∧ w.elems = v.elems.eraseIdx p
      ∧ w.elems = v.elems.take p ++ v.elems.drop (p + 1)
      ∧ w.size_ + 1 = v.size_
      ∧ v.elems.length = v.size_
      ∧ w.capacity_ = v.capacity_ := by
  obtain ⟨hlen, hsz, hcap⟩ := h
  have hmax : v.size_ ≤ SIZE_MOD := by
    unfold PTRDIFF_MAX at hcap
    unfold SIZE_MOD
    omega
  obtain ⟨w, h1, h2, h3, h4, _⟩ := Erase_elems v p (by omega) hp hmax
  refine ⟨w, h1, ?_, h2, h3, (split_store v (by omega)).2, h4⟩
  rw [h2, List.eraseIdx_eq_take_drop_succ]

/-- Instance of C4: erasing position 1 of `{10, 15, 20}`. -/
theorem C4_Erase_at_position_witness :
    WellFormed (⟨⟨[10, 15, 20, 0]⟩, 3, 4⟩ : SimpleVector Nat) ∧ 1 < 3
      ∧ ∃ w, Erase (⟨⟨[10, 15, 20, 0]⟩, 3, 4⟩ : SimpleVector Nat) 1 = .ok (w, 1)
        ∧ w.elems = [10, 20] ∧ w.size_ + 1 = 3 ∧ w.capacity_ = 4 := by
  refine ⟨by decide, by decide, ?_⟩
  obtain ⟨w, h1, h2, _, h4, _, h6⟩ :=
    C4_Erase_at_position (⟨⟨[10, 15, 20, 0]⟩, 3, 4⟩ : SimpleVector Nat) 1
      (by decide) (by decide)
  exact ⟨w, h1, h2, h4, h6⟩

/-- C5: on a well-formed array and for a position `p <= size`, `Insert` at
`p` followed by `Erase` at `p` gives back the original element sequence and
the original size; the capacity has not shrunk. The argument of `Insert` is
an object outside the array or an element of the array. -/
theorem C5_Insert_then_Erase [Inhabited α] [Movable α] (t : Transfer) (v : SimpleVector α)
    (p : Nat) (value : Ref α) (h : WellFormed v) (hp : p ≤ v.size_)
    (hadm : admits t v value) :
    ∃ w1 w2, Insert t v p value = .ok (w1, p) ∧ Erase w1 p = .ok (w2, p)
      ∧ w2.elems = v.elems
      ∧ w2.size_ = v.size_
      ∧ v.capacity_ ≤ w2.capacity_ := by
  obtain ⟨x, R, hins, hE, hR, _⟩ := Insert_ok t v p value h hp hadm
  obtain ⟨hlen, hsz, hcap⟩ := h
  have hPl : (v.elems.take p).length = p := by simp [hE, hp]
  have hel : (SimpleVector.mk ⟨v.elems.take p ++ x :: (v.elems.drop p ++ R)⟩ (v.size_ + 1)
      (grown v.size_ v.capacity_)).elems = v.elems.take p ++ x :: v.elems.drop p := by
    have := elems_mk (v.elems.take p ++ x :: v.elems.drop p) R (v.size_ + 1)
      (grown v.size_ v.capacity_) (by simp [hE]; omega)
    simpa using this
  obtain ⟨w2, h1, h2, h3, h4, _⟩ := Erase_elems
    (SimpleVector.mk ⟨v.elems.take p ++ x :: (v.elems.drop p ++ R)⟩ (v.size_ + 1)
      (grown v.size_ v.capacity_)) p
    (by simp [hE]; omega) (by show p < v.size_ + 1; omega)
    (by
      show v.size_ + 1 ≤ SIZE_MOD
      unfold PTRDIFF_MAX at hcap
      unfold SIZE_MOD
      omega)
  refine ⟨_, w2, hins, h1, ?_, ?_, ?_⟩
  · rw [h2, hel, List.take_left' hPl]
    have : List.drop (p + 1) (v.elems.take p ++ x :: v.elems.drop p) = v.elems.drop p := by
      have := @List.drop_left' α (v.elems.take p ++ [x]) (v.elems.drop p) (p + 1)
        (by simp [hPl])
      simpa using this
    rw [this, List.take_append_drop]
  · have : w2.size_ + 1 = v.size_ + 1 := h3
    omega
  · rw [h4]
    show v.capacity_ ≤ grown v.size_ v.capacity_
    unfold grown
    split
    · exact Nat.le_refl _
    · split <;> omega

/-- Instances of C5: with a reallocating `Insert`, with an in-place
`Insert`, and with an in-place `Insert` of the array's own element 1. -/
theorem C5_Insert_then_Erase_witness :
    (WellFormed (⟨⟨[10, 20]⟩, 2, 2⟩ : SimpleVector Nat) ∧ 1 ≤ 2
      ∧ ∃ w1 w2, Insert .by_copy (⟨⟨[10, 20]⟩, 2, 2⟩ : SimpleVector Nat) 1 (.outside 15)
          = .ok (w1, 1)
        ∧ Erase w1 1 = .ok (w2, 1) ∧ w2.elems = [10, 20] ∧ w2.size_ = 2)
    ∧ (WellFormed (⟨⟨[10, 20, 0]⟩, 2, 3⟩ : SimpleVector Nat) ∧ 2 ≤ 2
      ∧ ∃ w1 w2, Insert .by_move (⟨⟨[10, 20, 0]⟩, 2, 3⟩ : SimpleVector Nat) 2 (.outside 15)
          = .ok (w1, 2)
        ∧ Erase w1 2 = .ok (w2, 2) ∧ w2.elems = [10, 20] ∧ w2.size_ = 2)
    ∧ (admits .by_copy (⟨⟨[10, 20, 0]⟩, 2, 3⟩ : SimpleVector Nat) (.slot 1)
      ∧ ∃ w1 w2, Insert .by_copy (⟨⟨[10, 20, 0]⟩, 2, 3⟩ : SimpleVector Nat) 0 (.slot 1)
          = .ok (w1, 0)
        ∧ Erase w1 0 = .ok (w2, 0) ∧ w2.elems = [10, 20] ∧ w2.size_ = 2) := by
  refine ⟨⟨by decide, by decide, ?_⟩, ⟨by decide, by decide, ?_⟩, ⟨by decide, ?_⟩⟩
  · obtain ⟨w1, w2, h1, h2, h3, h4, _⟩ :=
      C5_Insert_then_Erase .by_copy (⟨⟨[10, 20]⟩, 2, 2⟩ : SimpleVector Nat) 1 (.outside 15)
        (by decide) (by decide) (by decide)
    exact ⟨w1, w2, h1, h2, h3, h4⟩
  · obtain ⟨w1, w2, h1, h2, h3, h4, _⟩ :=
      C5_Insert_then_Erase .by_move (⟨⟨[10, 20, 0]⟩, 2, 3⟩ : SimpleVector Nat) 2
        (.outside 15) (by decide) (by decide) (by decide)
    exact ⟨w1, w2, h1, h2, h3, h4⟩
  · obtain ⟨w1, w2, h1, h2, h3, h4, _⟩ :=
      C5_Insert_then_Erase .by_copy (⟨⟨[10, 20, 0]⟩, 2, 3⟩ : SimpleVector Nat) 0 (.slot 1)
        (by decide) (by decide) (by decide)
    exact ⟨w1, w2, h1, h2, h3, h4⟩

theorem copy_construct_ok [Inhabited α] [Movable α] (a : SimpleVector α) (hr : Readable a) :
    copy_construct a = .ok (⟨⟨a.elems⟩, a.size_, a.capacity_⟩, a) := by
  have hc := copy_fresh Transfer.by_copy a a.size_ hr (Nat.le_refl _)
  obtain ⟨hsplit, _⟩ := split_store a hr
  rw [map_leftover_copy, ← hsplit] at hc
  simp only [copy_construct, GetSize, GetCapacity, hc, Nat.sub_self, List.replicate_zero,
    List.append_nil]

theorem copy_assign_ok [Inhabited α] [Movable α] (target a : SimpleVector α)
    (hr : Readable a) (hc : a.size_ ≤ a.capacity_) :
    copy_assign target a
      = .ok (⟨⟨a.elems ++ List.replicate (a.capacity_ - a.size_) default⟩, a.size_,
          a.capacity_⟩, a) := by
  have hc := copy_fresh Transfer.by_copy a a.capacity_ hr hc
  obtain ⟨hsplit, _⟩ := split_store a hr
  rw [map_leftover_copy, ← hsplit] at hc
  simp only [copy_assign, GetSize, GetCapacity, hc]

theorem move_construct_ok [Inhabited α] [Movable α] (a : SimpleVector α) (hr : Readable a) :
    move_construct a
      = .ok (⟨⟨a.elems⟩, a.size_, a.capacity_⟩,
          ⟨⟨a.elems.map (leftover Transfer.by_move) ++ a.items_.raw_ptr_.drop a.size_⟩, 0,
            a.capacity_⟩) := by
  have hc := copy_fresh Transfer.by_move a a.size_ hr (Nat.le_refl _)
  simp only [move_construct, GetSize, GetCapacity, hc, Nat.sub_self, List.replicate_zero,
    List.append_nil]

theorem move_assign_ok [Inhabited α] [Movable α] (target a : SimpleVector α)
    (hr : Readable a) (hc : a.size_ ≤ a.capacity_) :
    move_assign target a
      = .ok (⟨⟨a.elems ++ List.replicate (a.capacity_ - a.size_) default⟩, a.size_,
          a.capacity_⟩,
          ⟨⟨a.elems.map (leftover Transfer.by_move) ++ a.items_.raw_ptr_.drop a.size_⟩, 0,
            a.capacity_⟩) := by
  have hc := copy_fresh Transfer.by_move a a.capacity_ hr hc
  simp only [move_assign, GetSize, GetCapacity, hc]

/-- C6: for an array `a` whose elements are slots of its store and whose size
is at most its capacity, the array made by copy-construction from `a`, and
any target after copy-assignment from `a`, has the size of `a`, the capacity
of `a`, the elements of `a`, and compares equal to `a` under `operator==`;
`a` is as it was. -/
theorem C6_copy_equals_source [Inhabited α] [Movable α] [DecidableEq α]
    (a target : SimpleVector α) (hr : Readable a) (hc : a.size_ ≤ a.capacity_) :
    (∃ c, copy_construct a = .ok (c, a)
      ∧ c.size_ = a.size_ ∧ c.capacity_ = a.capacity_ ∧ c.elems = a.elems
      ∧ eq c a = .ok true)
    ∧ (∃ c, copy_assign target a = .ok (c, a)
      ∧ c.size_ = a.size_ ∧ c.capacity_ = a.capacity_ ∧ c.elems = a.elems
      ∧ eq c a = .ok true)
    ∧ copy_assign_self a = a := by
  have hE := (split_store a hr).2
  refine ⟨⟨_, copy_construct_ok a hr, rfl, rfl, ?_, ?_⟩,
    ⟨_, copy_assign_ok target a hr hc, rfl, rfl, ?_, ?_⟩, rfl⟩
  · have := elems_mk a.elems [] a.size_ a.capacity_ hE.symm
    simpa using this
  · have he : (SimpleVector.mk ⟨a.elems⟩ a.size_ a.capacity_).elems = a.elems := by
      have := elems_mk a.elems [] a.size_ a.capacity_ hE.symm
      simpa using this
    rw [eq_ok _ a (by simp [Readable, hE]) hr, he]
    simp
  · exact elems_mk a.elems _ a.size_ a.capacity_ hE.symm
  · have he := elems_mk a.elems (List.replicate (a.capacity_ - a.size_) default) a.size_
      a.capacity_ hE.symm
    rw [eq_ok _ a (by simp [Readable, hE]) hr, he]
    simp

/-- Instance of C6: copies of `{1, 2}` held with capacity 3. -/
theorem C6_copy_equals_source_witness :
    Readable (⟨⟨[1, 2, 0]⟩, 2, 3⟩ : SimpleVector Nat) ∧ 2 ≤ 3
      ∧ (∃ c, copy_construct (⟨⟨[1, 2, 0]⟩, 2, 3⟩ : SimpleVector Nat)
            = .ok (c, ⟨⟨[1, 2, 0]⟩, 2, 3⟩)
          ∧ c.size_ = 2 ∧ c.capacity_ = 3 ∧ c.elems = [1, 2]
          ∧ eq c ⟨⟨[1, 2, 0]⟩, 2, 3⟩ = .ok true)
      ∧ (∃ c, copy_assign (⟨⟨[5]⟩, 1, 1⟩ : SimpleVector Nat) ⟨⟨[1, 2, 0]⟩, 2, 3⟩
            = .ok (c, ⟨⟨[1, 2, 0]⟩, 2, 3⟩)
          ∧ c.size_ = 2 ∧ c.capacity_ = 3 ∧ c.elems = [1, 2]
          ∧ eq c ⟨⟨[1, 2, 0]⟩, 2, 3⟩ = .ok true) := by
  have h := C6_copy_equals_source (⟨⟨[1, 2, 0]⟩, 2, 3⟩ : SimpleVector Nat) ⟨⟨[5]⟩, 1, 1⟩
    (by decide) (by decide)
  exact ⟨by decide, by decide, h.1, h.2.1⟩

/-- Counterexample to C7 as stated: moving from `{1, 2}` (capacity 2), by
move-construction or by move-assignment into an empty array, leaves the
source with size 0 and capacity 2. -/
theorem C7_counterexample :
    WellFormed (⟨⟨[1, 2]⟩, 2, 2⟩ : SimpleVector Nat)
    ∧ move_construct (⟨⟨[1, 2]⟩, 2, 2⟩ : SimpleVector Nat)
        = .ok (⟨⟨[1, 2]⟩, 2, 2⟩, ⟨⟨[1, 2]⟩, 0, 2⟩)
    ∧ move_assign (empty : SimpleVector Nat) ⟨⟨[1, 2]⟩, 2, 2⟩
        = .ok (⟨⟨[1, 2]⟩, 2, 2⟩, ⟨⟨[1, 2]⟩, 0, 2⟩)
    ∧ ¬ ((⟨⟨[1, 2]⟩, 0, 2⟩ : SimpleVector Nat).size_ = 0
          ∧ (⟨⟨[1, 2]⟩, 0, 2⟩ : SimpleVector Nat).capacity_ = 0) := by
  refine ⟨by decide, rfl, rfl, by decide⟩

/-- C7, amended: for an array `a` whose elements are slots of its store and
whose size is at most its capacity, after `a` is the source of a
move-construction or of a move-assignment into a different array, `a` has
size 0 and the capacity it had before. -/
theorem C7_moved_from_source [Inhabited α] [Movable α] (a target : SimpleVector α)
    (hr : Readable a) (hc : a.size_ ≤ a.capacity_) :
    (∃ d s, move_construct a = .ok (d, s) ∧ s.size_ = 0 ∧ s.capacity_ = a.capacity_)
    ∧ (∃ d s, move_assign target a = .ok (d, s) ∧ s.size_ = 0
        ∧ s.capacity_ = a.capacity_) :=
  ⟨⟨_, _, move_construct_ok a hr, rfl, rfl⟩, ⟨_, _, move_assign_ok target a hr hc, rfl, rfl⟩⟩

/-- Instance of the amended C7: the source `{[1], [2]}` held with capacity 3. -/
theorem C7_moved_from_source_witness :
    Readable (⟨⟨[[1], [2], []]⟩, 2, 3⟩ : SimpleVector (List Nat)) ∧ 2 ≤ 3
      ∧ (∃ d s, move_construct (⟨⟨[[1], [2], []]⟩, 2, 3⟩ : SimpleVector (List Nat))
            = .ok (d, s) ∧ s.size_ = 0 ∧ s.capacity_ = 3)
      ∧ (∃ d s, move_assign (empty : SimpleVector (List Nat)) ⟨⟨[[1], [2], []]⟩, 2, 3⟩
            = .ok (d, s) ∧ s.size_ = 0 ∧ s.capacity_ = 3) := by
  have h := C7_moved_from_source (⟨⟨[[1], [2], []]⟩, 2, 3⟩ : SimpleVector (List Nat)) empty
    (by decide) (by decide)
  exact ⟨by decide, by decide, h.1, h.2⟩

/-- C8: for an array `a` (its elements slots of its store, its size at most
its capacity) with element sequence `s`, size `n` and capacity `c`, the
destination of a move-construction from `a`, and the target of a
move-assignment from `a`, has size `n`, capacity `c` and element sequence
`s`. -/
theorem C8_move_destination [Inhabited α] [Movable α] (a target : SimpleVector α)
    (hr : Readable a) (hc : a.size_ ≤ a.capacity_) :
    (∃ d s, move_construct a = .ok (d, s)
      ∧ d.size_ = a.size_ ∧ d.capacity_ = a.capacity_ ∧ d.elems = a.elems)
    ∧ (∃ d s, move_assign target a = .ok (d, s)
      ∧ d.size_ = a.size_ ∧ d.capacity_ = a.capacity_ ∧ d.elems = a.elems) := by
  have hE := (split_store a hr).2
  refine ⟨⟨_, _, move_construct_ok a hr, rfl, rfl, ?_⟩,
    ⟨_, _, move_assign_ok target a hr hc, rfl, rfl, ?_⟩⟩
  · have := elems_mk a.elems [] a.size_ a.capacity_ hE.symm
    simpa using this
  · exact elems_mk a.elems _ a.size_ a.capacity_ hE.symm

/-- Instance of C8: moving from `{[1], [2]}` held with capacity 3. -/
theorem C8_move_destination_witness :
    Readable (⟨⟨[[1], [2], []]⟩, 2, 3⟩ : SimpleVector (List Nat)) ∧ 2 ≤ 3
      ∧ (∃ d s, move_construct (⟨⟨[[1], [2], []]⟩, 2, 3⟩ : SimpleVector (List Nat))
            = .ok (d, s) ∧ d.size_ = 2 ∧ d.capacity_ = 3 ∧ d.elems = [[1], [2]])
      ∧ (∃ d s, move_assign (⟨⟨[[7]]⟩, 1, 1⟩ : SimpleVector (List Nat))
            ⟨⟨[[1], [2], []]⟩, 2, 3⟩
            = .ok (d, s) ∧ d.size_ = 2 ∧ d.capacity_ = 3 ∧ d.elems = [[1], [2]]) := by
  have h := C8_move_destination (⟨⟨[[1], [2], []]⟩, 2, 3⟩ : SimpleVector (List Nat))
    ⟨⟨[[7]]⟩, 1, 1⟩ (by decide) (by decide)
  exact ⟨by decide, by decide, h.1, h.2⟩

/-- C9: for an array `v` whose elements are slots of its store and for every
index `i`, `At(i)` fails with the out-of-range condition exactly when
`i >= size`; when `i < size` it returns the element at position `i`; in both
cases the array is unchanged. So `At(size)` fails, and `At(size - 1)`
succeeds on a non-empty array. -/
theorem C9_At_checks_index (v : SimpleVector α) (i : Nat) (hr : Readable v) :
    ((At v i).1 = .error .out_of_range ↔ v.size_ ≤ i)
    ∧ (i < v.size_ → (At v i).1 = v.index i
        ∧ ∃ y, v.elems.get? i = some y ∧ (At v i).1 = .ok y)
    ∧ (At v i).2 = v
    ∧ (At v v.size_).1 = .error .out_of_range
    ∧ (0 < v.size_ → ∃ y, (At v (v.size_ - 1)).1 = .ok y) := by
  have hE := (split_store v hr).2
  have key : ∀ j, j < v.size_ → ∃ y, v.elems.get? j = some y ∧ (At v j).1 = .ok y := by
    intro j hj
    have hj2 : j < v.elems.length := by omega
    refine ⟨v.elems[j], by simp [List.getElem?_eq_getElem hj2], ?_⟩
    have hn : ¬ j ≥ v.size_ := by omega
    have hidx := index_lt v j hj
    unfold index at hidx
    simp only [At, hn, if_false]
    rw [hidx]
    simp [ArrayPtr.read, List.getElem?_eq_getElem hj2]
  refine ⟨?_, ?_, ?_, ?_, ?_⟩
  · constructor
    · intro h
      by_contra hlt
      obtain ⟨y, _, hy⟩ := key i (by omega)
      rw [hy] at h
      cases h
    · intro h
      simp [At, h]
  · intro hi
    refine ⟨?_, key i hi⟩
    have hn : ¬ i ≥ v.size_ := by omega
    simp [At, hn, index]
  · unfold At
    split <;> rfl
  · simp [At]
  · intro hpos
    obtain ⟨y, _, hy⟩ := key (v.size_ - 1) (by omega)
    exact ⟨y, hy⟩

/-- Instance of C9: index 1 of `{10, 20}` held with capacity 3. -/
theorem C9_At_checks_index_witness :
    Readable (⟨⟨[10, 20, 0]⟩, 2, 3⟩ : SimpleVector Nat)
      ∧ (At (⟨⟨[10, 20, 0]⟩, 2, 3⟩ : SimpleVector Nat) 1).1 = .ok 20
      ∧ (At (⟨⟨[10, 20, 0]⟩, 2, 3⟩ : SimpleVector Nat) 2).1 = .error .out_of_range
      ∧ (At (⟨⟨[10, 20, 0]⟩, 2, 3⟩ : SimpleVector Nat) 1).2 = ⟨⟨[10, 20, 0]⟩, 2, 3⟩ := by
  have h := C9_At_checks_index (⟨⟨[10, 20, 0]⟩, 2, 3⟩ : SimpleVector Nat) 1 (by decide)
  exact ⟨by decide, rfl, h.2.2.2.1, h.2.2.1⟩

theorem Resize_elems [Inhabited α] [Movable α] (v : SimpleVector α) (n : Nat)
    (h : WellFormed v) :
    ∃ w, Resize v n = .ok w
      ∧ w.size_ = n
      ∧ w.elems = v.elems.take n ++ List.replicate (n - v.size_) default
      ∧ w.capacity_ = (if n ≤ v.capacity_ then v.capacity_ else max n (2 * v.capacity_))
      ∧ v.elems.length = v.size_ := by
  obtain ⟨R, hres, hE⟩ := Resize_ok v n h
  refine ⟨_, hres, rfl, ?_, rfl, hE⟩
  have := elems_mk (v.elems.take n ++ List.replicate (n - v.size_) default) R n
    (if n ≤ v.capacity_ then v.capacity_ else max n (2 * v.capacity_))
    (by simp [hE]; omega)
  simpa using this

/-- C10: on a well-formed array with size `s` and capacity `c`, `Resize(n)`
returns an array of size `n`; every position below `min(n, s)` reads as
before; when `n > s` every position in `[s, n)` reads the default value; the
capacity is unchanged when `n <= c` and is `max(n, 2 * c)` when `n > c`. So
`Resize(k)` with `k < s` followed by `Resize(s)` keeps the values at the
positions below `k` and leaves default values at the positions `[k, s)`. -/
theorem C10_Resize [Inhabited α] [Movable α] (v : SimpleVector α) (n : Nat)
    (h : WellFormed v) :
    (∃ w, Resize v n = .ok w
      ∧ w.size_ = n
      ∧ w.elems = v.elems.take n ++ List.replicate (n - v.size_) default
      ∧ (∀ i, i < min n v.size_ → w.index i = v.index i)
      ∧ (∀ i, v.size_ ≤ i → i < n → w.index i = .ok default)
      ∧ (n ≤ v.capacity_ → w.capacity_ = v.capacity_)
      ∧ (v.capacity_ < n → w.capacity_ = max n (2 * v.capacity_)))
    ∧ (∀ k, k < v.size_ → ∃ w1 w2, Resize v k = .ok w1 ∧ Resize w1 v.size_ = .ok w2
      ∧ w2.size_ = v.size_
      ∧ w2.elems = v.elems.take k ++ List.replicate (v.size_ - k) default) := by
  constructor
  · obtain ⟨w, hres, hsz, hel, hcap, hE⟩ := Resize_elems v n h
    refine ⟨w, hres, hsz, hel, ?_, ?_, ?_, ?_⟩
    · intro i hi
      have h1 : i < n := by omega
      have h2 : i < v.size_ := by omega
      rw [index_lt w i (by omega), index_lt v i h2, hel]
      have h3 : i < (v.elems.take n).length := by simp [hE]; omega
      simp only [ArrayPtr.read, List.get?_eq_getElem?, List.getElem?_append_left h3,
        List.getElem?_take, h1, if_true]
    · intro i hlo hhi
      rw [index_lt w i (by omega), hel]
      have h3 : (v.elems.take n).length ≤ i := by simp [hE]; omega
      have h4 : (v.elems.take n).length = v.size_ := by simp [hE]; omega
      simp only [ArrayPtr.read, List.get?_eq_getElem?, List.getElem?_append_right h3, h4]
      rw [List.getElem?_replicate]
      have : i - v.size_ < n - v.size_ := by omega
      simp [this]
    · intro hle
      simp [hcap, hle]
    · intro hlt
      have : ¬ n ≤ v.capacity_ := by omega
      simp [hcap, this]
  · intro k hk
    obtain ⟨hlen, hsz, hcap⟩ := h
    have h1 : Resize v k = .ok { v with size_ := k } := by
      have : k ≤ v.size_ := by omega
      simp [Resize, this]
    have hwf : WellFormed ({ v with size_ := k } : SimpleVector α) :=
      ⟨hlen, by show k ≤ v.capacity_; omega, hcap⟩
    obtain ⟨w2, hres, hsz2, hel, _, _⟩ := Resize_elems { v with size_ := k } v.size_ hwf
    refine ⟨_, w2, h1, hres, hsz2, ?_⟩
    rw [hel]
    have he : ({ v with size_ := k } : SimpleVector α).elems = v.elems.take k := by
      simp only [elems, List.take_take]
      congr 1
      omega
    have hl : (v.elems.take k).length ≤ v.size_ := by
      simp
      omega
    rw [he, List.take_of_length_le hl]

/-- Instance of C10: `{1, 2, 3}` with capacity 3 resized to 5, and resized to
1 and back to 3. -/
theorem C10_Resize_witness :
    WellFormed (⟨⟨[1, 2, 3]⟩, 3, 3⟩ : SimpleVector Nat) ∧ 1 < 3
      ∧ (∃ w, Resize (⟨⟨[1, 2, 3]⟩, 3, 3⟩ : SimpleVector Nat) 5 = .ok w
          ∧ w.size_ = 5 ∧ w.elems = [1, 2, 3, 0, 0] ∧ w.capacity_ = 6)
      ∧ (∃ w1 w2, Resize (⟨⟨[1, 2, 3]⟩, 3, 3⟩ : SimpleVector Nat) 1 = .ok w1
          ∧ Resize w1 3 = .ok w2 ∧ w2.size_ = 3 ∧ w2.elems = [1, 0, 0]) := by
  obtain ⟨⟨w, h1, h2, h3, _, _, _, h7⟩, h8⟩ :=
    C10_Resize (⟨⟨[1, 2, 3]⟩, 3, 3⟩ : SimpleVector Nat) 5 (by decide)
  exact ⟨by decide, by decide, ⟨w, h1, h2, h3, h7 (by decide)⟩, h8 1 (by decide)⟩

end SimpleVector

namespace SimpleVector

theorem Reserve_ok [Inhabited α] [Movable α] (v : SimpleVector α) (n : Nat)
    (hr : Readable v) (hc : v.size_ ≤ v.capacity_) (hn : v.capacity_ < n) :
    Reserve v n = .ok ⟨⟨v.elems ++ List.replicate (n - v.size_) default⟩, v.size_, n⟩ := by
  have hcp := copy_fresh Transfer.by_move v n hr (by omega)
  have hgt : n > v.capacity_ := hn
  simp only [Reserve, hgt, if_true, hcp]

theorem index_congr (v w : SimpleVector α) (i : Nat) (hv : i < v.size_) (hw : i < w.size_)
    (h : w.elems = v.elems) : w.index i = v.index i := by
  rw [index_lt w i hw, index_lt v i hv, h]

/-- C11: on a well-formed array, `Reserve(n)` leaves the size and the
elements at the positions `[0, size)` as they were; when `n > capacity` the
new capacity is `n` and the new backing store holds exactly `n` slots; when
`n <= capacity` the array is unchanged. -/
theorem C11_Reserve [Inhabited α] [Movable α] (v : SimpleVector α) (n : Nat)
    (h : WellFormed v) :
    ∃ w, Reserve v n = .ok w
      ∧ w.size_ = v.size_
      ∧ w.elems = v.elems
      ∧ (∀ i, i < v.size_ → w.index i = v.index i)
      ∧ (v.capacity_ < n → w.capacity_ = n ∧ w.items_.raw_ptr_.length = n)
      ∧ (n ≤ v.capacity_ → w = v) := by
  obtain ⟨hlen, hsz, hcap⟩ := h
  have hr : Readable v := by unfold Readable; omega
  have hE := (split_store v hr).2
  by_cases hn : v.capacity_ < n
  · have hel : (SimpleVector.mk ⟨v.elems ++ List.replicate (n - v.size_) default⟩
        v.size_ n).elems = v.elems := elems_mk v.elems _ v.size_ n hE.symm
    refine ⟨_, Reserve_ok v n hr hsz hn, rfl, hel, ?_, ?_, ?_⟩
    · intro i hi
      exact index_congr v _ i hi hi hel
    · intro _
      refine ⟨rfl, ?_⟩
      simp [hE]
      omega
    · intro hle
      omega
  · have hng : ¬ n > v.capacity_ := hn
    refine ⟨v, by simp only [Reserve, hng, if_false], rfl, rfl, fun _ _ => rfl, ?_, fun _ => rfl⟩
    intro hlt
    omega

/-- Instances of C11: `{1, 2}` with capacity 3, reserved to 5 and to 2. -/
theorem C11_Reserve_witness :
    WellFormed (⟨⟨[1, 2, 0]⟩, 2, 3⟩ : SimpleVector Nat)
      ∧ (∃ w, Reserve (⟨⟨[1, 2, 0]⟩, 2, 3⟩ : SimpleVector Nat) 5 = .ok w
          ∧ w.size_ = 2 ∧ w.elems = [1, 2] ∧ w.capacity_ = 5
          ∧ w.items_.raw_ptr_.length = 5)
      ∧ (∃ w, Reserve (⟨⟨[1, 2, 0]⟩, 2, 3⟩ : SimpleVector Nat) 2 = .ok w
          ∧ w = ⟨⟨[1, 2, 0]⟩, 2, 3⟩) := by
  refine ⟨by decide, ?_, ?_⟩
  · obtain ⟨w, h1, h2, h3, _, h5, _⟩ :=
      C11_Reserve (⟨⟨[1, 2, 0]⟩, 2, 3⟩ : SimpleVector Nat) 5 (by decide)
    exact ⟨w, h1, h2, h3, (h5 (by decide)).1, (h5 (by decide)).2⟩
  · obtain ⟨w, h1, _, _, _, _, h6⟩ :=
      C11_Reserve (⟨⟨[1, 2, 0]⟩, 2, 3⟩ : SimpleVector Nat) 2 (by decide)
    exact ⟨w, h1, h6 (by decide)⟩

theorem with_value_ok [Inhabited α] (n : Nat) (x : α) :
    (with_value n x : Except Fault (SimpleVector α)) = .ok ⟨⟨List.replicate n x⟩, n, n⟩ := by
  have hf := fill_loop_spec x (List.replicate n (default : α)) [] [] n 0 (by simp) rfl
  simp only [List.nil_append, List.append_nil] at hf
  simp only [with_value, std_fill, Nat.not_lt_zero, if_false, Nat.sub_zero, ArrayPtr.alloc, hf]

/-- C15: for every `n` and every value `x`, the constructor
`SimpleVector(n, x)` returns an array with size `n` and capacity `n` (its
store holding `n` slots) in which every position of `[0, n)` reads `x`. -/
theorem C15_sized_constructor [Inhabited α] (n : Nat) (x : α) :
    ∃ w : SimpleVector α, with_value n x = .ok w
      ∧ w.size_ = n ∧ w.capacity_ = n
      ∧ w.items_.raw_ptr_.length = n
      ∧ w.elems = List.replicate n x
      ∧ ∀ i, i < n → w.index i = .ok x := by
  refine ⟨_, with_value_ok n x, rfl, rfl, by simp, by simp [elems], ?_⟩
  intro i hi
  simp [index, ArrayPtr.read, List.getElem?_replicate, hi]

end SimpleVector

namespace SimpleVector

theorem read_inj (X Y : List α) (i : Nat) (hx : i < X.length) (hy : i < Y.length)
    (h : (ArrayPtr.mk X).read i = (ArrayPtr.mk Y).read i) : X[i]? = Y[i]? := by
  have hX : X.get? i = some X[i] := by simp [List.getElem?_eq_getElem hx]
  have hY : Y.get? i = some Y[i] := by simp [List.getElem?_eq_getElem hy]
  simp only [ArrayPtr.read, hX, hY] at h
  rw [List.getElem?_eq_getElem hx, List.getElem?_eq_getElem hy, Except.ok.inj h]

theorem elems_eq_iff (a b : SimpleVector α) (ha : Readable a) (hb : Readable b) :
    a.elems = b.elems
      ↔ a.size_ = b.size_ ∧ ∀ i, i < a.size_ → a.index i = b.index i := by
  have hEa := (split_store a ha).2
  have hEb := (split_store b hb).2
  constructor
  · intro h
    have hs : a.size_ = b.size_ := by rw [← hEa, ← hEb, h]
    exact ⟨hs, fun i hi => index_congr b a i (by omega) hi h⟩
  · rintro ⟨hs, hi⟩
    apply List.ext_getElem?
    intro i
    by_cases hlt : i < a.size_
    · have := hi i hlt
      rw [index_lt a i hlt, index_lt b i (by omega)] at this
      exact read_inj _ _ i (by omega) (by omega) this
    · rw [List.getElem?_eq_none (by omega), List.getElem?_eq_none (by omega)]

/-- C12: for arrays `a` and `b` whose elements are slots of their stores,
`a == b` holds exactly when they have the same size and equal elements at
every position of `[0, size)`; the result depends on the elements in logical
use only, not on the capacities or on slots at positions `>= size`; and
`a != b` is the negation of `a == b`. -/
theorem C12_equality [DecidableEq α] (a b : SimpleVector α) (ha : Readable a)
    (hb : Readable b) :
    (eq a b = .ok true
        ↔ a.size_ = b.size_ ∧ ∀ i, i < a.size_ → a.index i = b.index i)
    ∧ (∃ r, eq a b = .ok r ∧ ne a b = .ok (!r))
    ∧ (∀ a2 b2 : SimpleVector α, Readable a2 → Readable b2 →
        a2.elems = a.elems → b2.elems = b.elems → eq a2 b2 = eq a b) := by
  have he := eq_ok a b ha hb
  refine ⟨?_, ⟨_, he, by simp only [ne, he]⟩, ?_⟩
  · rw [he, ← elems_eq_iff a b ha hb]
    simp
  · intro a2 b2 ha2 hb2 h1 h2
    rw [he, eq_ok a2 b2 ha2 hb2, h1, h2]

/-- Instances of C12: `{1, 2}` held with capacities 3 and 2 and different
spare slots compare equal; `{1, 2}` and `{1, 3}` compare unequal. -/
theorem C12_equality_witness :
    Readable (⟨⟨[1, 2, 7]⟩, 2, 3⟩ : SimpleVector Nat)
      ∧ Readable (⟨⟨[1, 2]⟩, 2, 2⟩ : SimpleVector Nat)
      ∧ eq (⟨⟨[1, 2, 7]⟩, 2, 3⟩ : SimpleVector Nat) ⟨⟨[1, 2]⟩, 2, 2⟩ = .ok true
      ∧ ∃ r, eq (⟨⟨[1, 2]⟩, 2, 2⟩ : SimpleVector Nat) ⟨⟨[1, 3]⟩, 2, 2⟩ = .ok r
          ∧ ne (⟨⟨[1, 2]⟩, 2, 2⟩ : SimpleVector Nat) ⟨⟨[1, 3]⟩, 2, 2⟩ = .ok (!r) := by
  refine ⟨by decide, by decide, ?_, ?_⟩
  · exact (C12_equality (⟨⟨[1, 2, 7]⟩, 2, 3⟩ : SimpleVector Nat) ⟨⟨[1, 2]⟩, 2, 2⟩
      (by decide) (by decide)).2.2 ⟨⟨[1, 2]⟩, 2, 2⟩ ⟨⟨[1, 2]⟩, 2, 2⟩ (by decide) (by decide)
      rfl rfl ▸ rfl
  · exact (C12_equality (⟨⟨[1, 2]⟩, 2, 2⟩ : SimpleVector Nat) ⟨⟨[1, 3]⟩, 2, 2⟩
      (by decide) (by decide)).2.1

end SimpleVector

/-! ## Lexicographic comparison -/

theorem lexicographical_loop_spec [LT α] [DecidableRel (fun (x y : α) => x < y)]
    (X : List α) :
    ∀ (Y A B C D : List α) (n1 n2 first1 first2 : Nat), n1 = X.length → n2 = Y.length →
      first1 = A.length → first2 = C.length →
      lexicographical_loop n1 n2 ⟨A ++ (X ++ B)⟩ first1 ⟨C ++ (Y ++ D)⟩ first2
        = .ok (lex_lt X Y) := by
  induction X with
  | nil =>
    intro Y A B C D n1 n2 first1 first2 h1 h2 _ _
    subst h1 h2
    cases Y <;> simp [lexicographical_loop, lex_lt]
  | cons x X ih =>
    intro Y A B C D n1 n2 first1 first2 h1 h2 hf1 hf2
    subst h1 h2
    cases Y with
    | nil => simp [lexicographical_loop, lex_lt]
    | cons y Y =>
      have h := ih Y (A ++ [x]) B (C ++ [y]) D X.length Y.length (first1 + 1) (first2 + 1)
        rfl rfl (by simp [hf1]) (by simp [hf2])
      simp only [List.append_assoc, List.singleton_append] at h
      simp only [List.length_cons, lexicographical_loop, List.cons_append,
        read_mid A (X ++ B) x first1 hf1, read_mid C (Y ++ D) y first2 hf2, h, lex_lt]
      split
      · rfl
      · split <;> rfl

theorem lex_lt_tri [LinearOrder α] (X : List α) :
    ∀ Y : List α,
      (lex_lt X Y = true ∧ X ≠ Y ∧ lex_lt Y X = false)
      ∨ (lex_lt X Y = false ∧ X = Y ∧ lex_lt Y X = false)
      ∨ (lex_lt X Y = false ∧ X ≠ Y ∧ lex_lt Y X = true) := by
  induction X with
  | nil =>
    intro Y
    cases Y with
    | nil => right; left; simp [lex_lt]
    | cons y Y => left; simp [lex_lt]
  | cons x X ih =>
    intro Y
    cases Y with
    | nil => right; right; simp [lex_lt]
    | cons y Y =>
      rcases lt_trichotomy x y with hxy | hxy | hxy
      · left
        have : ¬ y < x := not_lt_of_lt hxy
        have hne : x ≠ y := ne_of_lt hxy
        simp [lex_lt, hxy, this, hne]
      · subst hxy
        have hirr : ¬ x < x := lt_irrefl x
        rcases ih Y with h | ⟨h1, rfl, _⟩ | h
        · left; simp [lex_lt, hirr, h.1, h.2.1, h.2.2]
        · right; left; simp [lex_lt, hirr, h1]
        · right; right; simp [lex_lt, hirr, h.1, h.2.1, h.2.2]
      · right; right
        have : ¬ x < y := not_lt_of_lt hxy
        have hne : x ≠ y := (ne_of_lt hxy).symm
        simp [lex_lt, hxy, this, hne]

theorem LexLess_cons [LT α] (x : α) (X Y : List α) :
    LexLess (x :: X) (x :: Y) ↔ LexLess X Y := by
  constructor
  · rintro (⟨i, a, b, ha, hb, hne, hpre, hlt⟩ | ⟨hall, hlen⟩)
    · cases i with
      | zero =>
        simp at ha hb
        exact absurd (ha.symm.trans hb) hne
      | succ i =>
        left
        refine ⟨i, a, b, by simpa using ha, by simpa using hb, hne, ?_, hlt⟩
        intro j hj
        have := hpre (j + 1) (by omega)
        simpa using this
    · right
      refine ⟨?_, by simpa using hlen⟩
      intro i a b ha hb
      exact hall (i + 1) a b (by simpa using ha) (by simpa using hb)
  · rintro (⟨i, a, b, ha, hb, hne, hpre, hlt⟩ | ⟨hall, hlen⟩)
    · left
      refine ⟨i + 1, a, b, by simpa using ha, by simpa using hb, hne, ?_, hlt⟩
      intro j hj
      cases j with
      | zero => simp
      | succ j =>
        have := hpre j (by omega)
        simpa using this
    · right
      refine ⟨?_, by simpa using hlen⟩
      intro i a b ha hb
      cases i with
      | zero =>
        simp at ha hb
        exact ha.symm.trans hb
      | succ i => exact hall i a b (by simpa using ha) (by simpa using hb)

theorem lex_lt_iff [LinearOrder α] (X : List α) :
    ∀ Y : List α, lex_lt X Y = true ↔ LexLess X Y := by
  induction X with
  | nil =>
    intro Y
    cases Y with
    | nil => simp [lex_lt, LexLess]
    | cons y Y => simp [lex_lt, LexLess]
  | cons x X ih =>
    intro Y
    cases Y with
    | nil =>
      simp only [lex_lt, Bool.false_eq_true, false_iff]
      rintro (⟨i, a, b, _, hb, _⟩ | ⟨_, hlen⟩)
      · simp at hb
      · simp at hlen
    | cons y Y =>
      rcases lt_trichotomy x y with hxy | hxy | hxy
      · simp only [lex_lt, hxy, if_true, true_iff]
        left
        exact ⟨0, x, y, by simp, by simp, ne_of_lt hxy, fun j hj => absurd hj (by omega), hxy⟩
      · subst hxy
        rw [LexLess_cons, ← ih Y]
        simp [lex_lt]
      · have hn : ¬ x < y := not_lt_of_lt hxy
        simp only [lex_lt, hn, if_false, hxy, if_true, Bool.false_eq_true, false_iff]
        rintro (⟨i, a, b, ha, hb, hne, hpre, hlt⟩ | ⟨hall, _⟩)
        · cases i with
          | zero =>
            simp at ha hb
            subst ha hb
            exact hn hlt
          | succ i =>
            have := hpre 0 (by omega)
            simp at this
            subst this
            exact lt_irrefl _ hxy
        · have := hall 0 x y (by simp) (by simp)
          subst this
          exact lt_irrefl _ hxy

namespace SimpleVector

theorem lt_ok [LT α] [DecidableRel (fun (x y : α) => x < y)] (a b : SimpleVector α)
    (ha : Readable a) (hb : Readable b) :
    lt a b = .ok (lex_lt a.elems b.elems) := by
  obtain ⟨hsa, hEa⟩ := split_store a ha
  obtain ⟨hsb, hEb⟩ := split_store b hb
  have hea := end_eq a ha
  have heb := end_eq b hb
  have h := lexicographical_loop_spec a.elems b.elems [] (a.items_.raw_ptr_.drop a.size_) []
    (b.items_.raw_ptr_.drop b.size_) a.size_ b.size_ 0 0 hEa.symm hEb.symm rfl rfl
  simp only [List.nil_append] at h
  rw [← hsa, ← hsb] at h
  simp only [lt, std_lexicographical_compare, begin_, hea, heb, Nat.not_lt_zero, or_self,
    if_false, Nat.sub_zero, h]

theorem gt_eq_lt [LT α] [DecidableRel (fun (x y : α) => x < y)] (a b : SimpleVector α) :
    gt a b = lt b a := rfl

end SimpleVector

namespace SimpleVector

/-- C13: for arrays `a` and `b` (their elements slots of their stores) over
a linearly ordered element type, `a < b` holds exactly when either there is a
first position, below both sizes, at which the elements differ and there
`a[i] < b[i]`, or no position differs and `a` is strictly shorter than `b`;
and `a > b` is `b < a`. In particular `{1, 2} < {1, 2, 3}` and
`{1, 2, 9} < {1, 3}` hold. -/
theorem C13_lexicographic_less [LinearOrder α] (a b : SimpleVector α) (ha : Readable a)
    (hb : Readable b) :
    (∃ r, lt a b = .ok r ∧ (r = true ↔ LexLess a.elems b.elems))
    ∧ gt a b = lt b a
    ∧ (∃ r, gt a b = .ok r ∧ (r = true ↔ LexLess b.elems a.elems))
    ∧ (of_init [1, 2] >>= fun (x : SimpleVector Nat) =>
        of_init [1, 2, 3] >>= fun (y : SimpleVector Nat) => lt x y) = .ok true
    ∧ (of_init [1, 2, 9] >>= fun (x : SimpleVector Nat) =>
        of_init [1, 3] >>= fun (y : SimpleVector Nat) => lt x y) = .ok true := by
  refine ⟨⟨_, lt_ok a b ha hb, lex_lt_iff _ _⟩, rfl, ⟨_, ?_, lex_lt_iff _ _⟩, rfl, rfl⟩
  rw [gt_eq_lt]
  exact lt_ok b a hb ha

/-- Instance of C13: `{1, 2, 9} < {1, 3}`, decided at position 1, and
`{1, 3} > {1, 2, 9}` likewise. -/
theorem C13_lexicographic_less_witness :
    Readable (⟨⟨[1, 2, 9]⟩, 3, 3⟩ : SimpleVector Nat)
      ∧ Readable (⟨⟨[1, 3]⟩, 2, 2⟩ : SimpleVector Nat)
      ∧ (∃ r, lt (⟨⟨[1, 2, 9]⟩, 3, 3⟩ : SimpleVector Nat) ⟨⟨[1, 3]⟩, 2, 2⟩ = .ok r
          ∧ (r = true ↔ LexLess [1, 2, 9] [1, 3]))
      ∧ gt (⟨⟨[1, 3]⟩, 2, 2⟩ : SimpleVector Nat) ⟨⟨[1, 2, 9]⟩, 3, 3⟩
          = lt (⟨⟨[1, 2, 9]⟩, 3, 3⟩ : SimpleVector Nat) ⟨⟨[1, 3]⟩, 2, 2⟩ := by
  refine ⟨by decide, by decide, ?_, ?_⟩
  · exact (C13_lexicographic_less (⟨⟨[1, 2, 9]⟩, 3, 3⟩ : SimpleVector Nat) ⟨⟨[1, 3]⟩, 2, 2⟩
      (by decide) (by decide)).1
  · exact (C13_lexicographic_less (⟨⟨[1, 3]⟩, 2, 2⟩ : SimpleVector Nat) ⟨⟨[1, 2, 9]⟩, 3, 3⟩
      (by decide) (by decide)).2.1

/-- Counterexample to C14 as stated: for the arrays `{1, 3}` and `{1, 2, 9}`
made by the initializer-list constructor, `{1, 3} > {1, 2, 9}` does not
evaluate to false. -/
theorem C14_counterexample :
    ¬ ((of_init [1, 3] >>= fun (x : SimpleVector Nat) =>
        of_init [1, 2, 9] >>= fun (y : SimpleVector Nat) => gt x y) = .ok false) := by
  intro h
  have h2 : (of_init [1, 3] >>= fun (x : SimpleVector Nat) =>
        of_init [1, 2, 9] >>= fun (y : SimpleVector Nat) => gt x y) = .ok true := rfl
  rw [h2] at h
  cases h

/-- C14, amended: for the integer arrays `{1, 3}` and `{1, 2, 9}` the
comparison `{1, 3} > {1, 2, 9}` evaluates to true: it is the comparison
`{1, 2, 9} < {1, 3}`, decided at position 1 by `2 < 3`. -/
theorem C14_greater_evaluates_true :
    (of_init [1, 3] >>= fun (x : SimpleVector Nat) =>
        of_init [1, 2, 9] >>= fun (y : SimpleVector Nat) => gt x y) = .ok true
    ∧ of_init [1, 3] = .ok (⟨⟨[1, 3]⟩, 2, 2⟩ : SimpleVector Nat)
    ∧ of_init [1, 2, 9] = .ok (⟨⟨[1, 2, 9]⟩, 3, 3⟩ : SimpleVector Nat)
    ∧ gt (⟨⟨[1, 3]⟩, 2, 2⟩ : SimpleVector Nat) ⟨⟨[1, 2, 9]⟩, 3, 3⟩ = .ok true
    ∧ lt (⟨⟨[1, 2, 9]⟩, 3, 3⟩ : SimpleVector Nat) ⟨⟨[1, 3]⟩, 2, 2⟩ = .ok true :=
  ⟨rfl, rfl, rfl, rfl, rfl⟩

theorem lex_lt_bool [LinearOrder α] (X Y : List α) :
    ((lex_lt X Y = true ∧ decide (X = Y) = false ∧ lex_lt Y X = false)
      ∨ (lex_lt X Y = false ∧ decide (X = Y) = true ∧ lex_lt Y X = false)
      ∨ (lex_lt X Y = false ∧ decide (X = Y) = false ∧ lex_lt Y X = true))
    ∧ (!lex_lt Y X) = (lex_lt X Y || decide (X = Y))
    ∧ (!lex_lt X Y) = (lex_lt Y X || decide (X = Y)) := by
  rcases lex_lt_tri X Y with ⟨h1, h2, h3⟩ | ⟨h1, h2, h3⟩ | ⟨h1, h2, h3⟩
  · have hd : decide (X = Y) = false := by simp [h2]
    rw [h1, h3, hd]
    simp
  · have hd : decide (X = Y) = true := by simp [h2]
    rw [h1, h3, hd]
    simp
  · have hd : decide (X = Y) = false := by simp [h2]
    rw [h1, h3, hd]
    simp

/-- C19: for arrays `a` and `b` (their elements slots of their stores) over
a linearly ordered element type, exactly one of `a < b`, `a == b`, `a > b`
holds; `a <= b` holds exactly when `a < b` or `a == b`; and `a >= b` holds
exactly when `a > b` or `a == b`. -/
theorem C19_comparison_laws [LinearOrder α] (a b : SimpleVector α) (ha : Readable a)
    (hb : Readable b) :
    ∃ l e g, lt a b = .ok l ∧ eq a b = .ok e ∧ gt a b = .ok g
      ∧ ((l = true ∧ e = false ∧ g = false)
        ∨ (l = false ∧ e = true ∧ g = false)
        ∨ (l = false ∧ e = false ∧ g = true))
      ∧ le a b = .ok (l || e)
      ∧ ge a b = .ok (g || e) := by
  have hl := lt_ok a b ha hb
  have hg : gt a b = .ok (lex_lt b.elems a.elems) := by
    rw [gt_eq_lt]
    exact lt_ok b a hb ha
  have he := eq_ok a b ha hb
  obtain ⟨t1, t2, t3⟩ := lex_lt_bool a.elems b.elems
  refine ⟨_, _, _, hl, he, hg, t1, ?_, ?_⟩
  · simp only [le, hg, t2]
  · simp only [ge, hl, t3]

/-- Instance of C19: `{1, 2}` (held with capacity 3) against `{1, 3}`. -/
theorem C19_comparison_laws_witness :
    Readable (⟨⟨[1, 2, 0]⟩, 2, 3⟩ : SimpleVector Nat)
      ∧ Readable (⟨⟨[1, 3]⟩, 2, 2⟩ : SimpleVector Nat)
      ∧ ∃ l e g, lt (⟨⟨[1, 2, 0]⟩, 2, 3⟩ : SimpleVector Nat) ⟨⟨[1, 3]⟩, 2, 2⟩ = .ok l
          ∧ eq (⟨⟨[1, 2, 0]⟩, 2, 3⟩ : SimpleVector Nat) ⟨⟨[1, 3]⟩, 2, 2⟩ = .ok e
          ∧ gt (⟨⟨[1, 2, 0]⟩, 2, 3⟩ : SimpleVector Nat) ⟨⟨[1, 3]⟩, 2, 2⟩ = .ok g
          ∧ le (⟨⟨[1, 2, 0]⟩, 2, 3⟩ : SimpleVector Nat) ⟨⟨[1, 3]⟩, 2, 2⟩ = .ok (l || e)
          ∧ ge (⟨⟨[1, 2, 0]⟩, 2, 3⟩ : SimpleVector Nat) ⟨⟨[1, 3]⟩, 2, 2⟩ = .ok (g || e) := by
  obtain ⟨l, e, g, h1, h2, h3, _, h5, h6⟩ :=
    C19_comparison_laws (⟨⟨[1, 2, 0]⟩, 2, 3⟩ : SimpleVector Nat) ⟨⟨[1, 3]⟩, 2, 2⟩
      (by decide) (by decide)
  exact ⟨by decide, by decide, l, e, g, h1, h2, h3, h5, h6⟩

end SimpleVector

namespace SimpleVector

/-- C16 at the failing input: the array `a` made from the reservation hint 2
and one `PushBack` has size 1, capacity 2 and a store of 2 slots. Its
copy-constructed copy records capacity 2 and owns a store of 1 slot, and so
does the array move-constructed from it, while copy-assignment, the sibling
of the copy constructor, allocates `capacity` slots. -/
theorem C16_copy_constructor_slots_differ_from_capacity :
    PushBack .by_copy (with_reserve 2 : SimpleVector Nat) 1 = .ok ⟨⟨[1, 0]⟩, 1, 2⟩
    ∧ WellFormed (⟨⟨[1, 0]⟩, 1, 2⟩ : SimpleVector Nat)
    ∧ copy_construct (⟨⟨[1, 0]⟩, 1, 2⟩ : SimpleVector Nat)
        = .ok (⟨⟨[1]⟩, 1, 2⟩, ⟨⟨[1, 0]⟩, 1, 2⟩)
    ∧ move_construct (⟨⟨[1, 0]⟩, 1, 2⟩ : SimpleVector Nat)
        = .ok (⟨⟨[1]⟩, 1, 2⟩, ⟨⟨[1, 0]⟩, 0, 2⟩)
    ∧ (⟨⟨[1]⟩, 1, 2⟩ : SimpleVector Nat).items_.raw_ptr_.length = 1
    ∧ (⟨⟨[1]⟩, 1, 2⟩ : SimpleVector Nat).capacity_ = 2
    ∧ copy_assign (empty : SimpleVector Nat) ⟨⟨[1, 0]⟩, 1, 2⟩
        = .ok (⟨⟨[1, 0]⟩, 1, 2⟩, ⟨⟨[1, 0]⟩, 1, 2⟩) :=
  ⟨rfl, by decide, rfl, rfl, rfl, rfl, rfl⟩

/-- C18 at the failing input: for the array `a` made from the reservation
hint 2 and one `PushBack` (size 1, capacity 2), the copy-constructed copy
owns 1 slot and records capacity 2, so `PushBack(7)` on the copy takes the
in-place branch and writes slot 1, which the copy's store does not hold:
undefined behaviour, no array is returned. -/
theorem C18_PushBack_on_copy_writes_outside_store :
    PushBack .by_copy (with_reserve 2 : SimpleVector Nat) 1 = .ok ⟨⟨[1, 0]⟩, 1, 2⟩
    ∧ copy_construct (⟨⟨[1, 0]⟩, 1, 2⟩ : SimpleVector Nat)
        = .ok (⟨⟨[1]⟩, 1, 2⟩, ⟨⟨[1, 0]⟩, 1, 2⟩)
    ∧ (⟨⟨[1]⟩, 1, 2⟩ : SimpleVector Nat).items_.write 1 7 = .error .undefined_behaviour
    ∧ PushBack .by_copy (⟨⟨[1]⟩, 1, 2⟩ : SimpleVector Nat) 7 = .error .undefined_behaviour
    ∧ PushBack .by_move (⟨⟨[1]⟩, 1, 2⟩ : SimpleVector Nat) 7 = .error .undefined_behaviour :=
  ⟨rfl, rfl, rfl, rfl, rfl⟩

end SimpleVector

namespace SimpleVector

theorem PushBack_all_ok [Inhabited α] [Movable α] (t : Transfer) (xs : List α) :
    ∀ v : SimpleVector α, WellFormed v → 1 ≤ v.size_ → (∃ k, v.capacity_ = 2 ^ k) →
      v.capacity_ < 2 * v.size_ → v.size_ + xs.length ≤ 2 ^ 62 →
      ∃ w, PushBack_all t v xs = .ok w
        ∧ w.size_ = v.size_ + xs.length
        ∧ w.elems = v.elems ++ xs
        ∧ (∃ k, w.capacity_ = 2 ^ k)
        ∧ w.capacity_ < 2 * w.size_
        ∧ w.size_ ≤ w.capacity_ := by
  induction xs with
  | nil =>
    intro v h _ hk hlt _
    exact ⟨v, rfl, by simp, by simp, hk, hlt, h.2.1⟩
  | cons x xs ih =>
    intro v h h1 hk hlt hfit
    obtain ⟨R, hpush, hE, hR⟩ := PushBack_ok t v x h
    obtain ⟨hlen, hsz, hcap⟩ := h
    obtain ⟨k, hk⟩ := hk
    have hfit1 : v.size_ + 1 + xs.length ≤ 2 ^ 62 := by
      simp only [List.length_cons] at hfit
      omega
    have hgl : grown v.size_ v.capacity_ < 2 * (v.size_ + 1) := by
      unfold grown
      split
      · omega
      · split <;> omega
    have hgk : ∃ j, grown v.size_ v.capacity_ = 2 ^ j := by
      unfold grown
      split
      · exact ⟨k, hk⟩
      · split
        · exact ⟨0, rfl⟩
        · exact ⟨k + 1, by rw [hk, pow_succ]; omega⟩
    have hwf : WellFormed (SimpleVector.mk ⟨v.elems ++ x :: R⟩ (v.size_ + 1)
        (grown v.size_ v.capacity_)) := by
      refine ⟨?_, ?_, ?_⟩
      · simp [hE]
        omega
      · show v.size_ + 1 ≤ grown v.size_ v.capacity_
        omega
      · show grown v.size_ v.capacity_ ≤ PTRDIFF_MAX
        unfold PTRDIFF_MAX
        omega
    have hel : (SimpleVector.mk ⟨v.elems ++ x :: R⟩ (v.size_ + 1)
        (grown v.size_ v.capacity_)).elems = v.elems ++ [x] := by
      have := elems_mk (v.elems ++ [x]) R (v.size_ + 1) (grown v.size_ v.capacity_)
        (by simp [hE])
      simpa using this
    obtain ⟨w, hw, hws, hwe, hwk, hwl, hwc⟩ := ih _ hwf (by show 1 ≤ v.size_ + 1; omega) hgk
      hgl hfit1
    refine ⟨w, ?_, ?_, ?_, hwk, hwl, hwc⟩
    · simp only [PushBack_all, hpush, hw]
    · rw [hws]
      simp only [List.length_cons]
      omega
    · rw [hwe, hel]
      simp

/-- C20: after the `n >= 1` successive `PushBack` calls that push the values
of a list `xs` of length `n` onto a default-constructed array, the size is
`n`, the elements are `xs`, and the capacity is the smallest power of two
that is at least `n`, for every `n` whose smallest power of two is a number
of slots a store can have (`n <= 2 ^ 62`). -/
theorem C20_capacity_after_pushes [Inhabited α] [Movable α] (t : Transfer) (xs : List α)
    (h1 : 1 ≤ xs.length) (hfit : xs.length ≤ 2 ^ 62) :
    ∃ w, PushBack_all t (empty : SimpleVector α) xs = .ok w
      ∧ w.size_ = xs.length
      ∧ w.elems = xs
      ∧ (∃ k, w.capacity_ = 2 ^ k ∧ xs.length ≤ 2 ^ k ∧ ∀ j, xs.length ≤ 2 ^ j → 2 ^ k ≤ 2 ^ j)
      ∧ w.capacity_ = 2 ^ Nat.clog 2 xs.length := by
  cases xs with
  | nil => simp at h1
  | cons x xs =>
    have hfirst : PushBack t (empty : SimpleVector α) x = .ok ⟨⟨[x]⟩, 1, 1⟩ := rfl
    have hwf : WellFormed (⟨⟨[x]⟩, 1, 1⟩ : SimpleVector α) :=
      ⟨rfl, Nat.le_refl _, by unfold PTRDIFF_MAX; show 1 ≤ 2 ^ 63 - 1; omega⟩
    simp only [List.length_cons] at hfit
    obtain ⟨w, hw, hws, hwe, ⟨k, hk⟩, hwl, hwc⟩ :=
      PushBack_all_ok t xs (⟨⟨[x]⟩, 1, 1⟩ : SimpleVector α) hwf (Nat.le_refl _) ⟨0, rfl⟩
        (by show 1 < 2 * 1; omega) (by show 1 + xs.length ≤ 2 ^ 62; omega)
    have hsize : w.size_ = (x :: xs).length := by
      rw [hws]
      simp only [List.length_cons]
      show 1 + xs.length = xs.length + 1
      omega
    have hmin : ∀ j, (x :: xs).length ≤ 2 ^ j → 2 ^ k ≤ 2 ^ j := by
      intro j hj
      rw [← hsize] at hj
      have hlt : 2 ^ k < 2 ^ (j + 1) := by
        rw [pow_succ]
        omega
      have hkj : k < j + 1 := (Nat.pow_lt_pow_iff_right (by decide)).mp hlt
      exact Nat.pow_le_pow_right (by decide) (by omega)
    have hle : (x :: xs).length ≤ 2 ^ k := by
      rw [← hsize]
      omega
    refine ⟨w, ?_, hsize, ?_, ⟨k, hk, hle, hmin⟩, ?_⟩
    · simp only [PushBack_all, hfirst, hw]
    · rw [hwe]
      show [x] ++ xs = x :: xs
      rfl
    · rw [hk]
      congr 1
      apply Nat.le_antisymm
      · have := hmin (Nat.clog 2 (x :: xs).length) (Nat.le_pow_clog (by decide) _)
        exact (Nat.pow_le_pow_iff_right (by decide)).mp this
      · exact (Nat.le_pow_iff_clog_le (by decide)).mp hle

/-- Instances of C20: three pushes end with capacity 4, five with capacity
8. -/
theorem C20_capacity_after_pushes_witness :
    (1 ≤ [7, 8, 9].length ∧ [7, 8, 9].length ≤ 2 ^ 62
      ∧ ∃ w, PushBack_all .by_copy (empty : SimpleVector Nat) [7, 8, 9] = .ok w
        ∧ w.size_ = 3 ∧ w.elems = [7, 8, 9] ∧ w.capacity_ = 2 ^ Nat.clog 2 3)
    ∧ PushBack_all .by_copy (empty : SimpleVector Nat) [7, 8, 9]
        = .ok ⟨⟨[7, 8, 9, 0]⟩, 3, 4⟩
    ∧ PushBack_all .by_move (empty : SimpleVector Nat) [1, 2, 3, 4, 5]
        = .ok ⟨⟨[1, 2, 3, 4, 5, 0, 0, 0]⟩, 5, 8⟩ := by
  refine ⟨⟨by decide, by decide, ?_⟩, rfl, rfl⟩
  obtain ⟨w, h1, h2, h3, _, h5⟩ :=
    C20_capacity_after_pushes .by_copy ([7, 8, 9] : List Nat) (by decide) (by decide)
  exact ⟨w, h1, h2, h3, h5⟩

end SimpleVector

/-! ## The counters after each operation -/

namespace SimpleVector

theorem PushBack_counters [Inhabited α] [Movable α] (t : Transfer) (v w : SimpleVector α)
    (x : α) (hv : v.size_ ≤ v.capacity_) (hb : v.capacity_ ≤ PTRDIFF_MAX)
    (h : PushBack t v x = .ok w) : w.size_ ≤ w.capacity_ := by
  have hincr := incr_eq v.size_ (by omega)
  have htw := twice_eq v.capacity_ hb
  simp only [PushBack] at h
  split at h
  · split at h
    · cases h
    · cases h
      show incr v.size_ ≤ v.capacity_
      omega
  · split at h
    · cases h
    · split at h
      · cases h
      · cases h
        show incr v.size_ ≤ (if v.capacity_ = 0 then 1 else twice v.capacity_)
        split <;> omega

theorem Insert_counters [Inhabited α] [Movable α] (t : Transfer) (v w : SimpleVector α)
    (p q : Nat) (x : Ref α) (hv : v.size_ ≤ v.capacity_) (hb : v.capacity_ ≤ PTRDIFF_MAX)
    (h : Insert t v p x = .ok (w, q)) : w.size_ ≤ w.capacity_ := by
  have hincr := incr_eq v.size_ (by omega)
  have htw := twice_eq v.capacity_ hb
  simp only [Insert] at h
  split at h
  · split at h
    · cases h
    · split at h
      · cases h
      · cases h
        show incr v.size_ ≤ v.capacity_
        omega
  · split at h
    · cases h
    · split at h
      · cases h
      · split at h
        · cases h
        · cases h
          show incr v.size_ ≤ (if v.capacity_ = 0 then 1 else twice v.capacity_)
          split <;> omega

theorem Erase_counters [Movable α] (v w : SimpleVector α) (p q : Nat)
    (hv : v.size_ ≤ v.capacity_) (hb : v.capacity_ ≤ PTRDIFF_MAX) (hp : p < v.size_)
    (h : Erase v p = .ok (w, q)) : w.size_ ≤ w.capacity_ := by
  have hd := decr_eq v.size_ (by omega) (by unfold SIZE_MOD; unfold PTRDIFF_MAX at hb; omega)
  simp only [Erase] at h
  split at h
  · cases h
  · cases h
    show decr v.size_ ≤ v.capacity_
    omega

theorem Resize_counters [Inhabited α] [Movable α] (v w : SimpleVector α) (n : Nat)
    (hv : v.size_ ≤ v.capacity_) (h : Resize v n = .ok w) : w.size_ ≤ w.capacity_ := by
  simp only [Resize] at h
  split at h
  · cases h
    show n ≤ v.capacity_
    omega
  · split at h
    · split at h
      · cases h
      · cases h
        show n ≤ v.capacity_
        omega
    · split at h
      · cases h
      · split at h
        · cases h
        · cases h
          show n ≤ max n (twice v.capacity_)
          exact Nat.le_max_left _ _

theorem Reserve_counters [Inhabited α] [Movable α] (v w : SimpleVector α) (n : Nat)
    (hv : v.size_ ≤ v.capacity_) (h : Reserve v n = .ok w) : w.size_ ≤ w.capacity_ := by
  simp only [Reserve] at h
  split at h
  · split at h
    · cases h
    · cases h
      show v.size_ ≤ n
      omega
  · cases h
    exact hv

theorem copy_construct_counters [Inhabited α] [Movable α] (v c s : SimpleVector α)
    (hv : v.size_ ≤ v.capacity_) (h : copy_construct v = .ok (c, s)) :
    c.size_ ≤ c.capacity_ ∧ s.size_ ≤ s.capacity_ := by
  simp only [copy_construct] at h
  split at h
  · cases h
  · cases h
    exact ⟨hv, hv⟩

theorem move_construct_counters [Inhabited α] [Movable α] (v c s : SimpleVector α)
    (hv : v.size_ ≤ v.capacity_) (h : move_construct v = .ok (c, s)) :
    c.size_ ≤ c.capacity_ ∧ s.size_ ≤ s.capacity_ := by
  simp only [move_construct] at h
  split at h
  · cases h
  · cases h
    exact ⟨hv, Nat.zero_le _⟩

theorem copy_assign_counters [Inhabited α] [Movable α] (u v c s : SimpleVector α)
    (hv : v.size_ ≤ v.capacity_) (h : copy_assign u v = .ok (c, s)) :
    c.size_ ≤ c.capacity_ ∧ s.size_ ≤ s.capacity_ := by
  simp only [copy_assign] at h
  split at h
  · cases h
  · cases h
    exact ⟨hv, hv⟩

theorem move_assign_counters [Inhabited α] [Movable α] (u v c s : SimpleVector α)
    (hv : v.size_ ≤ v.capacity_) (h : move_assign u v = .ok (c, s)) :
    c.size_ ≤ c.capacity_ ∧ s.size_ ≤ s.capacity_ := by
  simp only [move_assign] at h
  split at h
  · cases h
  · cases h
    exact ⟨hv, Nat.zero_le _⟩

theorem of_init_ok [Inhabited α] [Movable α] (init : List α) :
    of_init init = .ok ⟨⟨init⟩, init.length, init.length⟩ := by
  have hc := copy_loop_spec Transfer.by_copy init [] [] []
    (List.replicate init.length (default : α)) [] init.length 0 0 rfl (by simp) rfl rfl
  simp only [List.nil_append, List.append_nil] at hc
  simp only [of_init, std_copy, Nat.not_lt_zero, if_false, Nat.sub_zero, ArrayPtr.alloc, hc]

theorem with_size_ok [Inhabited α] (n : Nat) :
    (with_size n : Except Fault (SimpleVector α))
      = .ok ⟨⟨List.replicate n default⟩, n, n⟩ :=
  with_value_ok n default

end SimpleVector

namespace SimpleVector

/-- C17: `size <= capacity` holds for the array made by every constructor
(default, sized, sized with a value, initializer list, reservation hint, copy
and move from an array for which it holds), and for an array `v` (and `u`)
for which it holds, with a capacity a store can have, it holds again after
every mutating operation called
under its documented preconditions: copy- and move-assignment (for the
target and for the source), `PushBack`, `Insert` (whatever its argument is
bound to), `Erase` at a position below the size, `PopBack` on a non-empty array, `Resize`, `Reserve`, `Clear`
and `swap`. The calls that read the store return when the elements of `v`
are slots of its store, and those that write in place when `v` is well
formed. -/
theorem C17_size_le_capacity [Inhabited α] [Movable α] (t : Transfer) (v u : SimpleVector α)
    (x : α) (value : Ref α) (n p : Nat) (init : List α)
    (hv : v.size_ ≤ v.capacity_) (hu : u.size_ ≤ u.capacity_)
    (hb : v.capacity_ ≤ PTRDIFF_MAX) :
    ((empty : SimpleVector α).size_ ≤ (empty : SimpleVector α).capacity_
      ∧ (∃ w : SimpleVector α, with_size n = .ok w ∧ w.size_ ≤ w.capacity_)
      ∧ (∃ w : SimpleVector α, with_value n x = .ok w ∧ w.size_ ≤ w.capacity_)
      ∧ (∃ w : SimpleVector α, of_init init = .ok w ∧ w.size_ ≤ w.capacity_)
      ∧ (with_reserve n : SimpleVector α).size_ ≤ (with_reserve n : SimpleVector α).capacity_
      ∧ (∀ c s, copy_construct v = .ok (c, s) → c.size_ ≤ c.capacity_ ∧ s.size_ ≤ s.capacity_)
      ∧ (∀ c s, move_construct v = .ok (c, s) → c.size_ ≤ c.capacity_ ∧ s.size_ ≤ s.capacity_))
    ∧ ((∀ c s, copy_assign u v = .ok (c, s) → c.size_ ≤ c.capacity_ ∧ s.size_ ≤ s.capacity_)
      ∧ (copy_assign_self v).size_ ≤ (copy_assign_self v).capacity_
      ∧ (∀ c s, move_assign u v = .ok (c, s) → c.size_ ≤ c.capacity_ ∧ s.size_ ≤ s.capacity_)
      ∧ (move_assign_self v).size_ ≤ (move_assign_self v).capacity_
      ∧ (∀ w, PushBack t v x = .ok w → w.size_ ≤ w.capacity_)
      ∧ (∀ w q, Insert t v p value = .ok (w, q) → w.size_ ≤ w.capacity_)
      ∧ (p < v.size_ → ∀ w q, Erase v p = .ok (w, q) → w.size_ ≤ w.capacity_)
      ∧ (0 < v.size_ → (PopBack v).size_ ≤ (PopBack v).capacity_)
      ∧ (∀ w, Resize v n = .ok w → w.size_ ≤ w.capacity_)
      ∧ (∀ w, Reserve v n = .ok w → w.size_ ≤ w.capacity_)
      ∧ (Clear v).size_ ≤ (Clear v).capacity_
      ∧ (swap v u).1.size_ ≤ (swap v u).1.capacity_
      ∧ (swap v u).2.size_ ≤ (swap v u).2.capacity_)
    ∧ (Readable v →
        (∃ r, copy_construct v = .ok r) ∧ (∃ r, move_construct v = .ok r)
        ∧ (∃ r, copy_assign u v = .ok r) ∧ (∃ r, move_assign u v = .ok r)
        ∧ (∃ w, Reserve v n = .ok w) ∧ (p < v.size_ → ∃ r, Erase v p = .ok r))
    ∧ (WellFormed v →
        (∃ w, PushBack t v x = .ok w)
        ∧ (p ≤ v.size_ → admits t v value → ∃ r, Insert t v p value = .ok r)
        ∧ (∃ w, Resize v n = .ok w)) := by
  have hmax : v.size_ ≤ SIZE_MOD := by
    unfold SIZE_MOD
    unfold PTRDIFF_MAX at hb
    omega
  refine ⟨⟨Nat.le_refl _, ⟨_, with_size_ok n, Nat.le_refl _⟩, ⟨_, with_value_ok n x, Nat.le_refl _⟩,
      ⟨_, of_init_ok init, Nat.le_refl _⟩, Nat.zero_le _,
      fun c s h => copy_construct_counters v c s hv h,
      fun c s h => move_construct_counters v c s hv h⟩,
    ⟨fun c s h => copy_assign_counters u v c s hv h, hv,
      fun c s h => move_assign_counters u v c s hv h, hv,
      fun w h => PushBack_counters t v w x hv hb h,
      fun w q h => Insert_counters t v w p q value hv hb h,
      fun hp w q h => Erase_counters v w p q hv hb hp h,
      ?_,
      fun w h => Resize_counters v w n hv h,
      fun w h => Reserve_counters v w n hv h,
      Nat.zero_le _, hu, hv⟩, ?_, ?_⟩
  · intro hpos
    simp only [PopBack, decr_eq v.size_ hpos hmax]
    omega
  · intro hr
    refine ⟨⟨_, copy_construct_ok v hr⟩, ⟨_, move_construct_ok v hr⟩,
      ⟨_, copy_assign_ok u v hr hv⟩, ⟨_, move_assign_ok u v hr hv⟩, ?_, ?_⟩
    · by_cases hn : v.capacity_ < n
      · exact ⟨_, Reserve_ok v n hr hv hn⟩
      · have hng : ¬ n > v.capacity_ := hn
        exact ⟨v, by simp only [Reserve, hng, if_false]⟩
    · intro hp
      obtain ⟨g, hg, _⟩ := Erase_ok v p hr hp hmax
      exact ⟨_, hg⟩
  · intro hwf
    refine ⟨?_, ?_, ?_⟩
    · obtain ⟨R, hR, _⟩ := PushBack_ok t v x hwf
      exact ⟨_, hR⟩
    · intro hp hadm
      obtain ⟨y, R, hR, _⟩ := Insert_ok t v p value hwf hp hadm
      exact ⟨_, hR⟩
    · obtain ⟨R, hR, _⟩ := Resize_ok v n hwf
      exact ⟨_, hR⟩

/-- Instance of C17: `{1, 2}` held with capacity 3, after `PushBack`,
`Insert`, `Erase`, `Resize`, `Reserve` and `PopBack`. -/
theorem C17_size_le_capacity_witness :
    (⟨⟨[1, 2, 0]⟩, 2, 3⟩ : SimpleVector Nat).size_
        ≤ (⟨⟨[1, 2, 0]⟩, 2, 3⟩ : SimpleVector Nat).capacity_
      ∧ (⟨⟨[5]⟩, 1, 1⟩ : SimpleVector Nat).size_ ≤ (⟨⟨[5]⟩, 1, 1⟩ : SimpleVector Nat).capacity_
      ∧ (⟨⟨[1, 2, 0]⟩, 2, 3⟩ : SimpleVector Nat).capacity_ ≤ PTRDIFF_MAX
      ∧ (∀ w, PushBack .by_copy (⟨⟨[1, 2, 0]⟩, 2, 3⟩ : SimpleVector Nat) 7 = .ok w →
          w.size_ ≤ w.capacity_)
      ∧ (∃ w, PushBack .by_copy (⟨⟨[1, 2, 0]⟩, 2, 3⟩ : SimpleVector Nat) 7 = .ok w)
      ∧ (∀ w, Resize (⟨⟨[1, 2, 0]⟩, 2, 3⟩ : SimpleVector Nat) 9 = .ok w →
          w.size_ ≤ w.capacity_)
      ∧ (∃ w, Resize (⟨⟨[1, 2, 0]⟩, 2, 3⟩ : SimpleVector Nat) 9 = .ok w)
      ∧ (PopBack (⟨⟨[1, 2, 0]⟩, 2, 3⟩ : SimpleVector Nat)).size_
          ≤ (PopBack (⟨⟨[1, 2, 0]⟩, 2, 3⟩ : SimpleVector Nat)).capacity_ := by
  have h := C17_size_le_capacity .by_copy (⟨⟨[1, 2, 0]⟩, 2, 3⟩ : SimpleVector Nat)
    ⟨⟨[5]⟩, 1, 1⟩ 7 (.slot 1) 9 1 [4, 5] (by decide) (by decide) (by decide)
  obtain ⟨_, ⟨_, _, _, _, hpush, _, _, hpop, hres, _⟩, _, htot⟩ := h
  obtain ⟨tpush, _, tres⟩ := htot (by decide)
  exact ⟨by decide, by decide, by decide, hpush, tpush, hres, tres, hpop (by decide)⟩

end SimpleVector

end SimpleVectorModel
